import Mathlib

/-!
Verification development for the CheckboxExplorer VS Code extension
(`src/extension.ts`).  The line-oriented parsing functions of the source are
built on JavaScript regular expressions; we embed them by a small backtracking
regular-expression engine whose priority order (the order in which a JS engine
tries alternatives) is the order of the produced result list.  All definitions
are executable; JS exceptions (`undefined.trim()`) are modelled by `Except`.
-/

namespace CB

/-! ## JavaScript character classes and string helpers -/

/-- The JS regex class `\s` (also the class trimmed by `String.prototype.trim`):
whitespace and line terminators. -/
def jsWS (c : Char) : Bool :=
  c == ' ' || c == '\t' || c == '\n' || c.toNat == 11 || c.toNat == 12 ||
  c == '\r' || c.toNat == 0xa0 || c.toNat == 0x1680 ||
  (0x2000 ≤ c.toNat && c.toNat ≤ 0x200a) || c.toNat == 0x2028 ||
  c.toNat == 0x2029 || c.toNat == 0x202f || c.toNat == 0x205f ||
  c.toNat == 0x3000 || c.toNat == 0xfeff

/-- The JS regex metacharacter `.` (without the `s` flag): any character that is
not a line terminator. -/
def jsDot (c : Char) : Bool :=
  !(c == '\n' || c == '\r' || c.toNat == 0x2028 || c.toNat == 0x2029)

/-- `[^|]` : any character except a pipe. -/
def nonPipe (c : Char) : Bool := !(c == '|')

/-- `[^|\n]` : any character except a pipe or a newline. -/
def nonPipeNL (c : Char) : Bool := !(c == '|' || c == '\n')

/-- JS `String.prototype.trim`: strip leading and trailing `\s` characters. -/
def jsTrim (s : List Char) : List Char :=
  ((s.dropWhile jsWS).reverse.dropWhile jsWS).reverse

/-- JS `String.prototype.split('|')` on the character list. -/
def splitPipe (s : List Char) : List (List Char) :=
  match s with
  | [] => [[]]
  | c :: t =>
    if c == '|' then [] :: splitPipe t
    else
      match splitPipe t with
      | [] => [[c]]
      | h :: r => (c :: h) :: r

/-- Join segments with `'|'` (the inverse image used to build value lists). -/
def joinPipe (l : List (List Char)) : List Char :=
  match l with
  | [] => []
  | [s] => s
  | s :: t => s ++ '|' :: joinPipe t

/-- JS `String.prototype.includes(pat)`: `pat` occurs contiguously in `s`. -/
def containsSeq (pat : List Char) : List Char → Bool
  | [] => pat.isEmpty
  | c :: t => pat.isPrefixOf (c :: t) || containsSeq pat t

/-- The pipe-prefixed tail of a joined value list: `pipes [b, c] = "|b|c"`,
so that `joinPipe (a :: r) = a ++ pipes r`. -/
def pipes : List (List Char) → List Char
  | [] => []
  | s :: r => '|' :: (s ++ pipes r)

/-! ## A backtracking regular-expression engine

`reMatches re s c` returns every way `re` can match a prefix of `s`
(continuing from capture state `c`), **in the priority order in which a
JavaScript backtracking engine tries them**: the head of the list is the match
the JS engine commits to.  Greedy quantifiers put longer consumption first,
lazy quantifiers shorter consumption first, `alt` puts its left branch first.
-/

/-- Regular-expression abstract syntax (just the constructs appearing in the
source's patterns). -/
inductive RE : Type
  | eps : RE
  | lit : Char → RE
  | cls : (Char → Bool) → RE
  | seq : RE → RE → RE
  | alt : RE → RE → RE
  | starG : RE → RE
  | starL : RE → RE
  | group : Nat → RE → RE

/-- Capture state: group index ↦ captured characters, most recent first
(a later capture of the same group shadows the earlier one, as in JS). -/
abbrev Caps := List (Nat × List Char)

/-- One way for a regex to match a prefix of the input: the remaining input
and the capture state. -/
structure MRes where
  rest : List Char
  caps : Caps
  deriving Repr, DecidableEq

/-- Kleene-star driver: given the matcher `f` of the body, produce the results
of the star on `s`.  `greedy` selects whether longer consumption comes first.
A body iteration that consumes nothing is not repeated (a JS engine aborts
empty-match iterations of a quantifier).  The structural `fuel` argument makes
the definition reduce in the kernel; every iteration strictly shrinks the
input, so the semantics is exact whenever `s.length ≤ fuel` (when fuel runs
out the input is empty and the base case is the true answer). -/
def starRun (greedy : Bool) (f : List Char → Caps → List MRes) :
    Nat → List Char → Caps → List MRes
  | 0, s, c => [⟨s, c⟩]
  | fuel + 1, s, c =>
    let deeper :=
      (f s c).flatMap (fun m =>
        if m.rest.length < s.length then starRun greedy f fuel m.rest m.caps
        else [])
    match greedy with
    | true => deeper ++ [⟨s, c⟩]
    | false => ⟨s, c⟩ :: deeper

/-- All matches of `re` on a prefix of `s`, in JS priority order. -/
def reMatches : RE → List Char → Caps → List MRes
  | .eps, s, c => [⟨s, c⟩]
  | .lit ch, s, c =>
    match s with
    | [] => []
    | a :: t => if a == ch then [⟨t, c⟩] else []
  | .cls f, s, c =>
    match s with
    | [] => []
    | a :: t => if f a then [⟨t, c⟩] else []
  | .seq a b, s, c => (reMatches a s c).flatMap (fun m => reMatches b m.rest m.caps)
  | .alt a b, s, c => reMatches a s c ++ reMatches b s c
  | .starG r, s, c => starRun true (reMatches r) s.length s c
  | .starL r, s, c => starRun false (reMatches r) s.length s c
  | .group i r, s, c =>
    (reMatches r s c).map
      (fun m => ⟨m.rest, (i, s.take (s.length - m.rest.length)) :: m.caps⟩)

/-- `regex.exec(s)` / `s.match(regex)`: try each start position from the left;
at the first position where the pattern matches, commit to the
highest-priority match and return its captures. -/
def exec (r : RE) : List Char → Option Caps
  | [] => ((reMatches r [] []).head?).map MRes.caps
  | ch :: t =>
    (((reMatches r (ch :: t) []).head?).map MRes.caps).orElse (fun _ => exec r t)

/-- Decidable equality for `Except`, so concrete evaluations can be settled
by `decide`. -/
instance {ε α : Type} [DecidableEq ε] [DecidableEq α] : DecidableEq (Except ε α) :=
  fun a b =>
    match a, b with
    | .ok x, .ok y =>
      if h : x = y then .isTrue (by rw [h]) else .isFalse (by simp [h])
    | .error x, .error y =>
      if h : x = y then .isTrue (by rw [h]) else .isFalse (by simp [h])
    | .ok _, .error _ => .isFalse (by simp)
    | .error _, .ok _ => .isFalse (by simp)

/-- Look up a capture group; `none` models a JS `undefined` group. -/
def capLookup (c : Caps) (i : Nat) : Option (List Char) :=
  match c with
  | [] => none
  | (j, v) :: t => if j == i then some v else capLookup t i

/-- `mandChar c re` holds when every string matched by `re` must contain the
character `c` (used to show non-matches: a match attempt on a string without
`c` fails). -/
def mandChar (c : Char) : RE → Bool
  | .eps => false
  | .lit ch => c == ch
  | .cls _ => false
  | .seq a b => mandChar c a || mandChar c b
  | .alt a b => mandChar c a && mandChar c b
  | .starG _ => false
  | .starL _ => false
  | .group _ r => mandChar c r

/-- A regex without capture groups (its matches never touch the capture
state). -/
def groupFree : RE → Bool
  | .eps => true
  | .lit _ => true
  | .cls _ => true
  | .seq a b => groupFree a && groupFree b
  | .alt a b => groupFree a && groupFree b
  | .starG r => groupFree r
  | .starL r => groupFree r
  | .group _ _ => false

/-! ## The source's regular expressions

The source escapes the comment token (`escapeRegex`) before splicing it into a
pattern, so the token is always matched literally; accordingly the embedding
splices the token as a sequence of literal characters.
-/

/-- A literal string as a regex. -/
def reStr (cs : List Char) : RE := cs.foldr (fun ch acc => .seq (.lit ch) acc) .eps

/-- `\s*` (greedy). -/
def reWS : RE := .starG (.cls jsWS)

/-- Greedy `+` : `rr*`. -/
def plusG (r : RE) : RE := .seq r (.starG r)

/-- Lazy `+?` : `rr*?`. -/
def plusL (r : RE) : RE := .seq r (.starL r)

/-- The literal marker `\[CB\]:`. -/
def cbMarker : List Char := '[' :: 'C' :: 'B' :: ']' :: ':' :: []

/-- `[^|]+(?:\|[^|\n]+)*` — the pipe-separated value list. -/
def valuesRE : RE :=
  .seq (plusG (.cls nonPipe)) (.starG (.seq (.lit '|') (plusG (.cls nonPipeNL))))

/-- `getCheckboxRegex`: `ESC(tok)\s*\[CB\]:\s*([^|]+(?:\|[^|\n]+)*)`. -/
def checkboxRE (tok : List Char) : RE :=
  .seq (reStr tok) (.seq reWS (.seq (reStr cbMarker) (.seq reWS (.group 1 valuesRE))))

/-- The regex of `extractVariableValue`: `=\s*(.+?)?\s*ESC(tok)\s*\[CB\]:`. -/
def extractRE (tok : List Char) : RE :=
  .seq (.lit '=')
    (.seq reWS
      (.seq (.alt (.group 1 (plusL (.cls jsDot))) .eps)
        (.seq reWS (.seq (reStr tok) (.seq reWS (reStr cbMarker))))))

/-- The rewrite regex of `toggleCheckboxAtLine` / `setCheckboxValue`:
`(.*)=\s*(.+?)\s*(ESC(tok)\s*\[CB\]:\s*)([^|]+(?:\|[^|\n]+)*)`. -/
def varRE (tok : List Char) : RE :=
  .seq (.group 1 (.starG (.cls jsDot)))
    (.seq (.lit '=')
      (.seq reWS
        (.seq (.group 2 (plusL (.cls jsDot)))
          (.seq reWS
            (.seq (.group 3 (.seq (reStr tok) (.seq reWS (.seq (reStr cbMarker) reWS))))
              (.group 4 valuesRE))))))

/-- The variable-name regex of `findCheckboxesInDocument`:
`(.*)=\s*(.+?)\s*(ESC(tok)\s*\[CB\]:)`. -/
def varNameRE (tok : List Char) : RE :=
  .seq (.group 1 (.starG (.cls jsDot)))
    (.seq (.lit '=')
      (.seq reWS
        (.seq (.group 2 (plusL (.cls jsDot)))
          (.seq reWS
            (.group 3 (.seq (reStr tok) (.seq reWS (reStr cbMarker))))))))

/-! ## The source's functions -/

/-- The comment-token table of `getCommentSyntax` (an object-literal lookup,
first matching key). -/
def commentMap : List (String × String) :=
  [("python", "#"), ("ruby", "#"), ("perl", "#"), ("r", "#"), ("yaml", "#"),
   ("bash", "#"), ("shell", "#"), ("powershell", "#"),
   ("javascript", "//"), ("typescript", "//"), ("java", "//"), ("c", "//"),
   ("cpp", "//"), ("csharp", "//"), ("go", "//"), ("rust", "//"),
   ("swift", "//"), ("kotlin", "//"), ("php", "//"), ("dart", "//")]

/-- `getCommentSyntax`: table lookup with default `"#"`. -/
def getCommentToken (languageId : String) : String :=
  (commentMap.lookup languageId).getD "#"

/-- `extractCheckboxValues` on the captured group:
`match[1].split('|').map(v => v.trim())`. -/
def extractCheckboxValuesL (g : List Char) : List (List Char) :=
  (splitPipe g).map jsTrim

/-- `extractVariableValue(lineText, commentSyntax)`.
`Except.error ()` models the JS `TypeError` thrown by `varMatch[1].trim()`
when the optional group `(.+?)?` did not participate in the match
(`varMatch[1] === undefined`). -/
def extractVariableValue (line tok : String) : Except Unit (Option String) :=
  match exec (extractRE tok.data) line.data with
  | none => .ok none
  | some caps =>
    match capLookup caps 1 with
    | some g => .ok (some (String.mk (jsTrim g)))
    | none => .error ()

/-- The validation result shape `{ isValid: boolean, errorMessage?: string }`. -/
structure ValidationResult where
  isValid : Bool
  errorMessage : Option String
  deriving Repr, DecidableEq

/-- `validateCheckboxValue(lineText, commentSyntax)`.  The JS test
`if (!varValue)` is falsy for both `null` and the empty string; a thrown
exception from `extractVariableValue` propagates. -/
def validateCheckboxValue (line tok : String) : Except Unit ValidationResult :=
  match extractVariableValue line tok with
  | .error e => .error e
  | .ok none => .ok ⟨true, none⟩
  | .ok (some v) =>
    if v = "" then .ok ⟨true, none⟩
    else
      match exec (checkboxRE tok.data) line.data with
      | none => .ok ⟨true, none⟩
      | some caps =>
        match capLookup caps 1 with
        | none => .error ()
        | some g =>
          let values := (extractCheckboxValuesL g).map String.mk
          if v ∈ values then .ok ⟨true, none⟩
          else
            .ok ⟨false,
              some ("Variable value \"" ++ v ++
                "\" does not match any carousel value (" ++
                String.intercalate ", " values ++ ")")⟩

/-- JS `Array.prototype.indexOf` (first occurrence, `-1` when absent). -/
def jsIndexOf (l : List String) (x : String) : Int :=
  match l with
  | [] => -1
  | a :: t =>
    if a = x then 0
    else
      let r := jsIndexOf t x
      if r = -1 then -1 else r + 1

/-- The next-value computation inlined in `toggleCheckboxAtLine` (lines
719–726): `values.indexOf(currentValue)`, step forward if found and not last,
else wrap to `values[0]`.  In the source the indices are always in range, so
the `getD` defaults are never consulted. -/
def nextValueCalc (values : List String) (currentValue : String) : String :=
  let currentIndex := jsIndexOf values currentValue
  if currentIndex ≠ -1 ∧ currentIndex < (values.length : Int) - 1 then
    values.getD (currentIndex.toNat + 1) ""
  else
    values.getD 0 ""

/-- The data `toggleCheckboxAtLine` computes from a line before rewriting it:
the four captured groups of `varRE`, the trimmed current value, the split
value list, and the computed next value. -/
structure ToggleParts where
  beforeEq : String
  current : String
  cbPre : String
  valuesStr : String
  values : List String
  newValue : String
  deriving Repr, DecidableEq

/-- The matching phase of `toggleCheckboxAtLine` (lines 700–727): both
`cbRegex` and `varRegex` must match; groups 1–4 of `varRegex` are always set
when it matches, so the defensive `none` for a missing group is unreachable. -/
def toggleParse (tok line : String) : Option ToggleParts :=
  match exec (checkboxRE tok.data) line.data, exec (varRE tok.data) line.data with
  | some _, some caps =>
    match capLookup caps 1, capLookup caps 2, capLookup caps 3, capLookup caps 4 with
    | some g1, some g2, some g3, some g4 =>
      let current := String.mk (jsTrim g2)
      let values := (extractCheckboxValuesL g4).map String.mk
      some ⟨String.mk g1, current, String.mk g3, String.mk g4, values,
            nextValueCalc values current⟩
    | _, _, _, _ => none
  | _, _ => none

/-- The rewritten line text (line 728):
``${beforeEquals}= ${newValue} ${cbPrefix}${valuesString}``. -/
def renderToggle (p : ToggleParts) : String :=
  p.beforeEq ++ "= " ++ p.newValue ++ " " ++ p.cbPre ++ p.valuesStr

/-- `toggleCheckboxAtLine` as a line-to-line function: `some` new line text
when a rewrite happens (the editor replaces the whole line range by it),
`none` when the structure cannot be matched (the source resolves `false`). -/
def toggleCheckboxAtLine (tok line : String) : Option String :=
  (toggleParse tok line).map renderToggle

/-- One tree item of kind `'checkbox'` as built by `findCheckboxesInDocument`
(only the fields the claims are about). -/
structure CheckboxItem where
  varName : String
  varValue : Option String
  checkboxValues : List String
  deriving Repr, DecidableEq

/-- The per-line body of `findCheckboxesInDocument` (lines 198–219): match the
checkbox regex, extract the variable value (which may throw), split the value
list, and compute the display name.  The search filter is its initial
always-true state (`query = ''`). -/
def scanLine (tok line : String) : Except Unit (Option CheckboxItem) :=
  match exec (checkboxRE tok.data) line.data with
  | none => .ok none
  | some caps =>
    match extractVariableValue line tok with
    | .error e => .error e
    | .ok varValue =>
      match capLookup caps 1 with
      | none => .error ()
      | some g =>
        let values := (extractCheckboxValuesL g).map String.mk
        let varName :=
          match exec (varNameRE tok.data) line.data with
          | some nc =>
            match capLookup nc 1 with
            | some n1 => String.mk (jsTrim n1)
            | none => "(unnamed)"
          | none => "(unnamed)"
        .ok (some ⟨varName, varValue, values⟩)

/-- Iterated application of the next-value step (used to state the cycle
closure property). -/
def iterateNext (values : List String) : Nat → String → String
  | 0, v => v
  | n + 1, v => iterateNext values n (nextValueCalc values v)

/-! ## The debounced-refresh state (`refreshFileDebounced`, lines 54–69)

The timer state of the tree data provider: the per-file cache map (we track
its key set), the project-wide file-set cache validity flag, the set of paths
pending invalidation, and the single debounce timer modelled by its absolute
deadline (`setTimeout(…, 500)` at time `t` arms a timer for `t + 500`;
`clearTimeout` before the deadline cancels it). -/

structure DebounceState where
  fileCacheKeys : List String
  filesCacheValid : Bool
  pending : List String
  timerDeadline : Option Nat
  deriving Repr, DecidableEq

/-- `refreshFileDebounced(filePath)` called at time `now`: add the path to the
pending set, clear any existing timer and arm a fresh 500 ms one. -/
def notifyEdit (st : DebounceState) (now : Nat) (path : String) : DebounceState :=
  ⟨st.fileCacheKeys, st.filesCacheValid,
   if path ∈ st.pending then st.pending else st.pending ++ [path],
   some (now + 500)⟩

/-- The timer callback (lines 61–68): drop every pending path from the
per-file cache, null the project-wide file-set cache, clear the pending set,
and fire `_onDidChangeTreeData` once. -/
def fireTimer (st : DebounceState) : DebounceState :=
  ⟨st.fileCacheKeys.filter (fun k => !(st.pending.contains k)), false, [], none⟩

/-- Single-threaded timeline driver: process time-stamped notifications in
order; a live timer whose deadline has passed fires before the next
notification is handled, and a timer still pending at the end of the timeline
eventually fires.  The second component counts `_onDidChangeTreeData`
firings (one per cache invalidation). -/
def runDebounce (st : DebounceState) (sigs : Nat) :
    List (Nat × String) → DebounceState × Nat
  | [] =>
    match st.timerDeadline with
    | some _ => (fireTimer st, sigs + 1)
    | none => (st, sigs)
  | (t, p) :: rest =>
    match st.timerDeadline with
    | some d =>
      if d ≤ t then runDebounce (notifyEdit (fireTimer st) t p) (sigs + 1) rest
      else runDebounce (notifyEdit st t p) sigs rest
    | none => runDebounce (notifyEdit st t p) sigs rest

/-! ## The workspace file listing (`getCheckboxFiles`, lines 124–158) -/

/-- `getCheckboxFiles` on a workspace given as `(path, content)` pairs with
distinct paths in enumeration order.  `vscode.workspace.findFiles(inc, exc,
500)` is external API; its documented `maxResults = 500` cap is modelled as
`take 500`.  Every candidate is then read (readability assumed here) and kept
iff its raw content contains the literal marker substring `[CB]:`; the
20-file read batching does not affect the resulting set. -/
def getCheckboxFilesModel (workspace : List (String × String)) : List String :=
  ((workspace.take 500).filter (fun f => containsSeq cbMarker f.2.data)).map Prod.fst

/-- A 501-candidate workspace whose only annotated file is enumerated last. -/
def c10BigWorkspace : List (String × String) :=
  (List.replicate 500 ("plain.py", "x = 1")) ++ [("annotated.py", "x = 1 # [CB]: 1|0")]

/-! ## The structured line family

The round-trip and agreement claims cannot hold on arbitrary lines (the
counterexamples below show rewrites that move which `=` is used); the amended
statements quantify over the lines of the following shape: a name part, a
single `=`, whitespace, the assigned value text, whitespace, the comment
token, whitespace, the marker, whitespace, and the pipe-joined value list
running to the end of the line. -/
def famLine (tok nm w1 vtext w2 w3 w4 jp : List Char) : List Char :=
  nm ++ '=' :: (w1 ++ (vtext ++ (w2 ++ (tok ++ (w3 ++ (cbMarker ++ (w4 ++ jp)))))))

/-! # Theorems -/

/-! ## Basic facts about the list helpers -/

theorem splitPipe_ne_nil (s : List Char) : splitPipe s ≠ [] := by
  match s with
  | [] => simp [splitPipe]
  | c :: t =>
    simp only [splitPipe]
    split
    · simp
    · split <;> simp

theorem jsIndexOf_cases (l : List String) (x : String) :
    jsIndexOf l x = -1 ∨ (0 ≤ jsIndexOf l x ∧ jsIndexOf l x < l.length) := by
  induction l with
  | nil => simp [jsIndexOf]
  | cons a t ih =>
    simp only [jsIndexOf, List.length_cons]
    split
    · right; constructor
      · omega
      · push_cast; omega
    · rcases ih with h | h
      · rw [h]; simp
      · rw [if_neg (by omega)]
        right
        push_cast at h ⊢
        omega

theorem nextValueCalc_of_found_not_last {l : List String} {x : String} {i : Nat}
    (h : jsIndexOf l x = (i : Int)) (hi : i + 1 < l.length) :
    nextValueCalc l x = l.getD (i + 1) "" := by
  unfold nextValueCalc
  rw [h, if_pos (by constructor <;> [omega; (push_cast; omega)])]
  norm_num

theorem nextValueCalc_of_found_last {l : List String} {x : String}
    (h : jsIndexOf l x = (l.length : Int) - 1) :
    nextValueCalc l x = l.getD 0 "" := by
  unfold nextValueCalc
  rw [h, if_neg (by omega)]

theorem nextValueCalc_of_not_found {l : List String} {x : String}
    (h : jsIndexOf l x = -1) :
    nextValueCalc l x = l.getD 0 "" := by
  unfold nextValueCalc
  rw [h, if_neg (by omega)]

theorem toggleParse_eq {tok line : String} {p : ToggleParts}
    (h : toggleParse tok line = some p) :
    p.newValue = nextValueCalc p.values p.current ∧ p.values ≠ [] := by
  unfold toggleParse at h
  split at h
  · split at h
    · cases h
      refine ⟨rfl, ?_⟩
      intro hc
      apply splitPipe_ne_nil _ (by simpa [extractCheckboxValuesL] using hc)
    · cases h
  · cases h

/-! ## C1 -/

/-- C1: whenever `toggleCheckboxAtLine` rewrites a line, the new assigned
value obeys the cycle rule over the (first-occurrence) index of the current
value in the pipe-separated value list: `values[i+1]` when the current value
is found at a non-last index `i`, and `values[0]` when it is found at the
last index or not found at all.  The statement is uniform in the list length,
so it covers 2-value lists and 3-or-more-value carousels identically. -/
theorem c1_toggle_cycle_rule (tok line : String) (p : ToggleParts)
    (h : toggleParse tok line = some p) :
    p.values ≠ [] ∧
    (∀ i : Nat, jsIndexOf p.values p.current = (i : Int) →
      (i + 1 < p.values.length → p.newValue = p.values.getD (i + 1) "") ∧
      (i + 1 = p.values.length → p.newValue = p.values.getD 0 "")) ∧
    (jsIndexOf p.values p.current = -1 → p.newValue = p.values.getD 0 "") := by
  obtain ⟨hnew, hne⟩ := toggleParse_eq h
  refine ⟨hne, ?_, ?_⟩
  · intro i hi
    refine ⟨fun hlt => ?_, fun hlast => ?_⟩
    · rw [hnew]; exact nextValueCalc_of_found_not_last hi hlt
    · rw [hnew]; apply nextValueCalc_of_found_last; rw [hi]; omega
  · intro hn
    rw [hnew]; exact nextValueCalc_of_not_found hn

theorem c1_witness :
    toggleParse "#" "mode = two # [CB]: one|two|three" =
      some ⟨"mode ", "two", "# [CB]: ", "one|two|three",
            ["one", "two", "three"], "three"⟩ ∧
    ("three" : String) = (["one", "two", "three"] : List String).getD 2 "" := by
  refine ⟨by decide, ?_⟩
  have h := c1_toggle_cycle_rule "#" "mode = two # [CB]: one|two|three"
    ⟨"mode ", "two", "# [CB]: ", "one|two|three", ["one", "two", "three"], "three"⟩
    (by decide)
  exact (h.2.1 1 (by decide)).1 (by decide)

/-! ## C2 -/

theorem getD_eq_get {l : List String} {i : Nat} (h : i < l.length) :
    l.getD i "" = l.get ⟨i, h⟩ := by
  simp [List.getD_eq_getElem?_getD, List.getElem?_eq_getElem h]

theorem get_val_congr {l : List String} {i j : Fin l.length}
    (h : (i : Nat) = (j : Nat)) : l.get i = l.get j :=
  congrArg l.get (Fin.ext h)

theorem jsIndexOf_nodup_get {l : List String} (hnd : l.Nodup) (i : Fin l.length) :
    jsIndexOf l (l.get i) = ((i : Nat) : Int) := by
  induction l with
  | nil => exact absurd i.isLt (by simp)
  | cons a t ih =>
    rcases i with ⟨iv, hiv⟩
    cases iv with
    | zero => simp [jsIndexOf]
    | succ j =>
      have hjv : j < t.length := by simpa using hiv
      have hget : (a :: t).get ⟨j + 1, hiv⟩ = t.get ⟨j, hjv⟩ := rfl
      have hmem : t.get ⟨j, hjv⟩ ∈ t := List.get_mem t j hjv
      have hne : ¬(a = t.get ⟨j, hjv⟩) :=
        fun he => (List.nodup_cons.mp hnd).1 (he ▸ hmem)
      have hrec := ih (List.nodup_cons.mp hnd).2 ⟨j, hjv⟩
      simp only [jsIndexOf, hget, if_neg hne, hrec]
      rw [if_neg (by omega)]
      push_cast
      ring

theorem nextValueCalc_nodup_get {l : List String} (hnd : l.Nodup) (i : Fin l.length) :
    nextValueCalc l (l.get i) =
      l.get ⟨((i : Nat) + 1) % l.length, Nat.mod_lt _ i.pos⟩ := by
  have hidx := jsIndexOf_nodup_get hnd i
  by_cases hlt : (i : Nat) + 1 < l.length
  · rw [nextValueCalc_of_found_not_last hidx hlt, getD_eq_get hlt]
    apply get_val_congr
    show (i : Nat) + 1 = ((i : Nat) + 1) % l.length
    exact (Nat.mod_eq_of_lt hlt).symm
  · have hlast : (i : Nat) + 1 = l.length := by have := i.isLt; omega
    rw [nextValueCalc_of_found_last (by rw [hidx]; omega), getD_eq_get i.pos]
    apply get_val_congr
    show 0 = ((i : Nat) + 1) % l.length
    rw [hlast, Nat.mod_self]

theorem iterateNext_nodup_get {l : List String} (hnd : l.Nodup) (k : Nat) :
    ∀ i : Fin l.length,
      iterateNext l k (l.get i) =
        l.get ⟨((i : Nat) + k) % l.length, Nat.mod_lt _ i.pos⟩ := by
  induction k with
  | zero =>
    intro i
    simp only [iterateNext]
    apply get_val_congr
    show (i : Nat) = ((i : Nat) + 0) % l.length
    rw [Nat.add_zero, Nat.mod_eq_of_lt i.isLt]
  | succ n ihn =>
    intro i
    simp only [iterateNext]
    rw [nextValueCalc_nodup_get hnd i,
        ihn ⟨((i : Nat) + 1) % l.length, Nat.mod_lt _ i.pos⟩]
    apply get_val_congr
    show (((i : Nat) + 1) % l.length + n) % l.length = ((i : Nat) + (n + 1)) % l.length
    rw [Nat.mod_add_mod]
    congr 1
    omega

/-- C2 counterexample: on a value list with a duplicate, applying the
next-value step `length` times from a member does not return to it:
from `"b"` on `["a", "a", "b"]` three steps give `"a"`. -/
theorem c2_counterexample :
    ("b" : String) ∈ (["a", "a", "b"] : List String) ∧
    (["a", "a", "b"] : List String).length = 3 ∧
    iterateNext ["a", "a", "b"] 3 "b" = "a" ∧ ("a" : String) ≠ "b" := by decide

/-- C2 (amended): on a value list whose values are pairwise distinct,
applying the next-value step exactly `values.length` times from any member
returns that member; in particular for distinct 2-value lists the step is an
involution on members.  (The claim as stated fails for lists with duplicated
values, because `indexOf` always finds the first occurrence.) -/
theorem c2_cycle_closure_nodup (values : List String) (hnd : values.Nodup)
    (v : String) (hv : v ∈ values) :
    iterateNext values values.length v = v := by
  obtain ⟨i, hi⟩ := List.mem_iff_get.mp hv
  subst hi
  rw [iterateNext_nodup_get hnd values.length i]
  apply get_val_congr
  show ((i : Nat) + values.length) % values.length = (i : Nat)
  rw [Nat.add_mod_right]
  exact Nat.mod_eq_of_lt i.isLt

theorem c2_witness :
    iterateNext ["one", "two", "three"] 3 "two" = "two" := by
  have h := c2_cycle_closure_nodup ["one", "two", "three"] (by decide) "two" (by decide)
  simpa using h

/-! ## C5 -/

/-- C5: `extractVariableValue` is *not* total.  On a line whose `=` is
followed (up to whitespace) directly by the annotation marker, the optional
group `(.+?)?` does not participate in the match, `varMatch[1]` is
`undefined`, and `varMatch[1].trim()` throws a `TypeError` — instead of the
`null` return the claim (and §7 of the spec) requires. -/
theorem c5_extract_throws_on_empty_value :
    extractVariableValue "x =# [CB]: a|b" "#" = .error () ∧
    extractVariableValue "x = # [CB]: a|b" "#" = .error () := by decide

/-! ## C6 -/

/-- C6 counterexample: on `x = # [CB]: a|b` no current value is extractable
(the extractor throws), and `validateCheckboxValue` propagates the exception
instead of returning `isValid = true` as the claim states. -/
theorem c6_counterexample :
    extractVariableValue "x = # [CB]: a|b" "#" = .error () ∧
    validateCheckboxValue "x = # [CB]: a|b" "#" = .error () ∧
    Except.error () ≠ (.ok (⟨true, none⟩ : ValidationResult) :
      Except Unit ValidationResult) := by decide

/-- C6 (amended): on every line where `extractVariableValue` does not throw,
`validateCheckboxValue` returns `isValid = true` whenever no current value is
extractable (`null`, or the empty string, which is equally falsy in JS) or no
annotation matches the line; when both a (nonempty) current value and an
annotation are present it is valid iff the current value is a member of the
annotation's values by exact case-sensitive string comparison, and when
invalid the error message is exactly
`Variable value "<value>" does not match any carousel value (<v1>, <v2>, ...)`
with the values in original order, comma-and-space joined. -/
theorem c6_validate (line tok : String) :
    (extractVariableValue line tok = .ok none →
      validateCheckboxValue line tok = .ok ⟨true, none⟩) ∧
    (extractVariableValue line tok = .ok (some "") →
      validateCheckboxValue line tok = .ok ⟨true, none⟩) ∧
    (∀ v, extractVariableValue line tok = .ok (some v) → v ≠ "" →
      exec (checkboxRE tok.data) line.data = none →
      validateCheckboxValue line tok = .ok ⟨true, none⟩) ∧
    (∀ v caps g, extractVariableValue line tok = .ok (some v) → v ≠ "" →
      exec (checkboxRE tok.data) line.data = some caps →
      capLookup caps 1 = some g →
      (v ∈ (extractCheckboxValuesL g).map String.mk →
        validateCheckboxValue line tok = .ok ⟨true, none⟩) ∧
      (v ∉ (extractCheckboxValuesL g).map String.mk →
        validateCheckboxValue line tok = .ok ⟨false,
          some ("Variable value \"" ++ v ++
            "\" does not match any carousel value (" ++
            String.intercalate ", " ((extractCheckboxValuesL g).map String.mk) ++
            ")")⟩)) := by
  refine ⟨fun h => ?_, fun h => ?_, fun v h hv hcb => ?_, fun v caps g h hv hcb hg => ?_⟩
  · simp [validateCheckboxValue, h]
  · simp [validateCheckboxValue, h]
  · simp [validateCheckboxValue, h, hv, hcb]
  · refine ⟨fun hmem => ?_, fun hmem => ?_⟩
    · simp [validateCheckboxValue, h, hv, hcb, hg, hmem]
    · simp [validateCheckboxValue, h, hv, hcb, hg, hmem]

theorem c6_witness :
    extractVariableValue "mode = invalid # [CB]: one|two|three" "#" =
      .ok (some "invalid") ∧
    validateCheckboxValue "mode = invalid # [CB]: one|two|three" "#" =
      .ok ⟨false, some ("Variable value \"invalid\" does not match any " ++
        "carousel value (one, two, three)")⟩ := by
  refine ⟨by decide, ?_⟩
  have h := ((c6_validate "mode = invalid # [CB]: one|two|three" "#").2.2.2
    "invalid" [(1, ("one|two|three").data)] ("one|two|three").data
    (by decide) (by decide) (by decide) (by decide)).2 (by decide)
  simpa using h

/-! ## C7 -/

/-- C7 counterexample: a line whose marker is followed only by whitespace is
*not* rejected — the scanner constructs a checkbox item whose value list is
the single empty value `[""]`. -/
theorem c7_counterexample :
    scanLine "#" "v = 1 # [CB]: " =
      .ok (some ⟨"v", some "1", [""]⟩) ∧
    ([""] : List String).length = 1 := by decide

/-- C7 (amended): every checkbox item the scanner constructs has a value list
of length at least 1, and a line whose marker has nothing at all after it
yields no item; but a marker followed only by whitespace is *not* rejected —
it yields an item whose value list is the single empty value (see the
counterexample), the regex having matched part of the trailing whitespace as
the value content. -/
theorem c7_values_nonempty :
    (∀ tok line it, scanLine tok line = .ok (some it) →
      it.checkboxValues ≠ []) ∧
    scanLine "#" "v = 1 # [CB]:" = .ok none := by
  refine ⟨fun tok line it h => ?_, by decide⟩
  unfold scanLine at h
  split at h
  · cases h
  · split at h
    · cases h
    · split at h
      · cases h
      · simp only [Except.ok.injEq, Option.some.injEq] at h
        rw [← h]
        intro hc
        apply splitPipe_ne_nil _ (by simpa [extractCheckboxValuesL] using hc)

theorem c7_witness :
    scanLine "#" "checkbox1 = 1 # [CB]: 1|0" =
      .ok (some ⟨"checkbox1", some "1", ["1", "0"]⟩) ∧
    (["1", "0"] : List String) ≠ [] :=
  ⟨by decide,
   (c7_values_nonempty).1 "#" "checkbox1 = 1 # [CB]: 1|0"
     ⟨"checkbox1", some "1", ["1", "0"]⟩ (by decide)⟩

/-! ## C3 counterexample -/

/-- C3 counterexample: on `a = b = c # [CB]: c|d` the toggle computes next
value `"d"` and rewrites the line, but re-running the value extractor on the
rewritten line yields `"b = d"` (the extractor anchors at the *first* `=`
while the rewrite regex anchored at the *last*), not the computed next
value. -/
theorem c3_counterexample :
    toggleCheckboxAtLine "#" "a = b = c # [CB]: c|d" =
      some "a = b = d # [CB]: c|d" ∧
    (toggleParse "#" "a = b = c # [CB]: c|d").map ToggleParts.newValue =
      some "d" ∧
    extractVariableValue "a = b = d # [CB]: c|d" "#" = .ok (some "b = d") ∧
    ("b = d" : String) ≠ "d" := by decide

/-! ## C4 counterexample -/

/-- C4 counterexample: the rewrite does not preserve everything outside the
assigned value verbatim — the whitespace around the assigned value is
normalized to single spaces (`x =  5  # …` becomes `x = 6 # …`, not
`x =  6  # …`), so more than the assigned value text differs. -/
theorem c4_counterexample :
    toggleCheckboxAtLine "#" "x =  5  # [CB]: 5|6" =
      some "x = 6 # [CB]: 5|6" ∧
    ("x = 6 # [CB]: 5|6" : String) ≠ "x =  6  # [CB]: 5|6" := by decide

/-! ## C8 counterexample -/

/-- C8 counterexample: the two functions do *not* agree on which `=` is
authoritative.  On `a = b = c # [CB]: c|d` the toggle's regex (greedy `(.*)`
before `=`) anchors at the last `=` and uses current value `"c"`, while
`extractVariableValue` anchors at the first `=` and returns `"b = c"`. -/
theorem c8_counterexample :
    (toggleParse "#" "a = b = c # [CB]: c|d").map ToggleParts.current =
      some "c" ∧
    extractVariableValue "a = b = c # [CB]: c|d" "#" = .ok (some "b = c") ∧
    ("c" : String) ≠ "b = c" := by decide

/-! ## C9 -/

theorem notifyEdit_pending_mem (st : DebounceState) (t : Nat) (p k : String) :
    k ∈ (notifyEdit st t p).pending ↔ k ∈ st.pending ∨ k = p := by
  simp only [notifyEdit]
  split
  · next hp =>
    constructor
    · exact Or.inl
    · rintro (h | rfl)
      · exact h
      · exact hp
  · simp

theorem foldNotify_fileCacheKeys (evs : List (Nat × String)) :
    ∀ st : DebounceState,
      (evs.foldl (fun s e => notifyEdit s e.1 e.2) st).fileCacheKeys =
        st.fileCacheKeys := by
  induction evs with
  | nil => intro st; rfl
  | cons e rest ih => intro st; rw [List.foldl_cons, ih]; rfl

theorem foldNotify_pending_mem (evs : List (Nat × String)) :
    ∀ (st : DebounceState) (k : String),
      (k ∈ (evs.foldl (fun s e => notifyEdit s e.1 e.2) st).pending ↔
        k ∈ st.pending ∨ k ∈ evs.map Prod.snd) := by
  induction evs with
  | nil => intro st k; simp
  | cons e rest ih =>
    intro st k
    rw [List.foldl_cons, ih, notifyEdit_pending_mem]
    simp only [List.map_cons, List.mem_cons]
    tauto

theorem runDebounce_armed (evs : List (Nat × String)) :
    ∀ (st : DebounceState) (sigs d : Nat), st.timerDeadline = some d →
    (∀ t' p', evs.head? = some (t', p') → t' < d) →
    List.Chain' (fun a b => b.1 < a.1 + 500) evs →
    runDebounce st sigs evs =
      (fireTimer (evs.foldl (fun s e => notifyEdit s e.1 e.2) st), sigs + 1) := by
  induction evs with
  | nil =>
    intro st sigs d hd _ _
    simp [runDebounce, hd]
  | cons e rest ih =>
    obtain ⟨t, p⟩ := e
    intro st sigs d hd hh hch
    have ht : t < d := hh t p rfl
    simp only [runDebounce, hd, List.foldl_cons]
    rw [if_neg (by omega)]
    apply ih (notifyEdit st t p) sigs (t + 500) rfl
    · intro t' p' hhd
      cases rest with
      | nil => cases hhd
      | cons b rr =>
        have hb := (List.chain'_cons.mp hch).1
        cases hhd
        simpa using hb
    · exact hch.tail

/-- C9: in the debounce model of `refreshFileDebounced`, any nonempty
sequence of edit notifications in which each notification arrives strictly
within the 500 ms quiet window of the previous one produces exactly one cache
invalidation and one index-changed signal, fired after the last
notification's quiet period; that single firing drops the per-file cache
entry of every path notified during the window and nulls the project-wide
file-set cache. -/
theorem c9_debounce (st0 : DebounceState) (h0 : st0.timerDeadline = none)
    (hp0 : st0.pending = [])
    (evs : List (Nat × String)) (hne : evs ≠ [])
    (hch : List.Chain' (fun a b => b.1 < a.1 + 500) evs) :
    (runDebounce st0 0 evs).2 = 1 ∧
    (runDebounce st0 0 evs).1.fileCacheKeys =
      st0.fileCacheKeys.filter (fun k => !(List.elem k (evs.map Prod.snd))) ∧
    (runDebounce st0 0 evs).1.filesCacheValid = false ∧
    (runDebounce st0 0 evs).1.pending = [] ∧
    (runDebounce st0 0 evs).1.timerDeadline = none := by
  cases evs with
  | nil => exact absurd rfl hne
  | cons e rest =>
    obtain ⟨t, p⟩ := e
    have hstep : runDebounce st0 0 ((t, p) :: rest) =
        runDebounce (notifyEdit st0 t p) 0 rest := by
      simp [runDebounce, h0]
    have harm := runDebounce_armed rest (notifyEdit st0 t p) 0 (t + 500) rfl
      (by
        intro t' p' hhd
        cases rest with
        | nil => cases hhd
        | cons b rr =>
          have hb := (List.chain'_cons.mp hch).1
          cases hhd
          simpa using hb)
      hch.tail
    rw [hstep, harm]
    refine ⟨rfl, ?_, rfl, rfl, rfl⟩
    simp only [fireTimer]
    rw [show (rest.foldl (fun s e => notifyEdit s e.1 e.2)
        (notifyEdit st0 t p)).fileCacheKeys = st0.fileCacheKeys from
      (foldNotify_fileCacheKeys rest (notifyEdit st0 t p)).trans rfl]
    apply List.filter_congr
    intro k _
    have hpend := foldNotify_pending_mem rest (notifyEdit st0 t p) k
    rw [notifyEdit_pending_mem, hp0] at hpend
    have hiff : k ∈ (rest.foldl (fun s e => notifyEdit s e.1 e.2)
        (notifyEdit st0 t p)).pending ↔ k ∈ ((t, p) :: rest).map Prod.snd := by
      rw [hpend]
      simp only [List.map_cons, List.mem_cons, List.not_mem_nil]
      tauto
    congr 1
    rw [Bool.eq_iff_iff]
    simp only [List.contains, List.elem_iff]
    exact hiff

theorem c9_witness :
    (runDebounce ⟨["f", "g"], true, [], none⟩ 0 [(0, "f"), (100, "f")]).2 = 1 ∧
    (runDebounce ⟨["f", "g"], true, [], none⟩ 0
      [(0, "f"), (100, "f")]).1.fileCacheKeys = ["g"] := by
  have h := c9_debounce ⟨["f", "g"], true, [], none⟩ rfl rfl
    [(0, "f"), (100, "f")] (by decide)
    (List.chain'_cons.mpr ⟨by norm_num, List.chain'_singleton _⟩)
  exact ⟨h.1, by rw [h.2.1]; decide⟩

/-! ## C10 -/

/-- C10: the file discovery enumerates at most 500 candidates, so the listing
equals the full set of marker-containing files exactly when the workspace has
at most 500 candidates; in the 501-candidate workspace whose only annotated
file comes last, that file is silently omitted (the listing is empty). -/
theorem c10_file_cap :
    (∀ ws : List (String × String), ws.length ≤ 500 →
      getCheckboxFilesModel ws =
        (ws.filter (fun f => containsSeq cbMarker f.2.data)).map Prod.fst) ∧
    getCheckboxFilesModel c10BigWorkspace = [] ∧
    ("annotated.py", "x = 1 # [CB]: 1|0") ∈ c10BigWorkspace ∧
    c10BigWorkspace.length = 501 ∧
    containsSeq cbMarker ("x = 1 # [CB]: 1|0").data = true := by
  refine ⟨fun ws hws => ?_, ?_, ?_, ?_, by decide⟩
  · unfold getCheckboxFilesModel
    rw [List.take_of_length_le hws]
  · unfold getCheckboxFilesModel c10BigWorkspace
    rw [List.take_left' (List.length_replicate 500 _)]
    rw [List.filter_eq_nil_iff.mpr
      (fun a ha => by rw [List.eq_of_mem_replicate ha]; decide)]
    rfl
  · exact List.mem_append_right _ (List.mem_singleton.mpr rfl)
  · unfold c10BigWorkspace
    rw [List.length_append, List.length_replicate]
    rfl

theorem c10_witness :
    getCheckboxFilesModel [("a.py", "x = 1 # [CB]: 1|0"), ("b.py", "y = 2")] =
      ["a.py"] := by
  have h := (c10_file_cap).1 [("a.py", "x = 1 # [CB]: 1|0"), ("b.py", "y = 2")]
    (by decide)
  rw [h]
  decide

/-! ## Generic soundness facts about the regex engine -/

theorem mem_of_head? {α : Type} {l : List α} {a : α} (h : l.head? = some a) :
    a ∈ l := by
  cases l with
  | nil => cases h
  | cons x xs =>
    simp only [List.head?, Option.some.injEq] at h
    subst h
    exact List.mem_cons_self _ _

theorem mem_reMatches_seq {a b : RE} {s : List Char} {c : Caps} {m : MRes} :
    m ∈ reMatches (.seq a b) s c ↔
      ∃ m1 ∈ reMatches a s c, m ∈ reMatches b m1.rest m1.caps :=
  List.mem_flatMap

theorem mem_reMatches_group {i : Nat} {r : RE} {s : List Char} {c : Caps}
    {m : MRes} :
    m ∈ reMatches (.group i r) s c ↔
      ∃ m' ∈ reMatches r s c,
        (⟨m'.rest, (i, s.take (s.length - m'.rest.length)) :: m'.caps⟩ : MRes)
          = m :=
  List.mem_map

theorem mem_reMatches_cls {f : Char → Bool} {s : List Char} {c : Caps}
    {m : MRes} (hm : m ∈ reMatches (.cls f) s c) :
    ∃ a t, s = a :: t ∧ f a = true ∧ m = ⟨t, c⟩ := by
  cases s with
  | nil => cases hm
  | cons a t =>
    simp only [reMatches] at hm
    split at hm
    · next hfa =>
      simp only [List.mem_singleton] at hm
      exact ⟨a, t, rfl, hfa, hm⟩
    · cases hm

theorem starRun_mem_cases {g : Bool} {f : List Char → Caps → List MRes}
    {fuel : Nat} {s : List Char} {c : Caps} {m : MRes}
    (hm : m ∈ starRun g f fuel s c) :
    m = ⟨s, c⟩ ∨ ∃ n, fuel = n + 1 ∧ ∃ m1 ∈ f s c,
      m1.rest.length < s.length ∧ m ∈ starRun g f n m1.rest m1.caps := by
  cases fuel with
  | zero =>
    left
    simpa [starRun] using hm
  | succ n =>
    simp only [starRun] at hm
    cases g with
    | false =>
      rcases List.mem_cons.mp hm with h | h
      · left; exact h
      · right
        obtain ⟨m1, hm1, hmem⟩ := List.mem_flatMap.mp h
        by_cases hlt : m1.rest.length < s.length
        · exact ⟨n, rfl, m1, hm1, hlt, by rwa [if_pos hlt] at hmem⟩
        · rw [if_neg hlt] at hmem; cases hmem
    | true =>
      rcases List.mem_append.mp hm with h | h
      · right
        obtain ⟨m1, hm1, hmem⟩ := List.mem_flatMap.mp h
        by_cases hlt : m1.rest.length < s.length
        · exact ⟨n, rfl, m1, hm1, hlt, by rwa [if_pos hlt] at hmem⟩
        · rw [if_neg hlt] at hmem; cases hmem
      · left; simpa using h

theorem starRun_suffix {g : Bool} {f : List Char → Caps → List MRes}
    (hf : ∀ s c m, m ∈ f s c → m.rest <:+ s) :
    ∀ (fuel : Nat) (s : List Char) (c : Caps) (m : MRes),
      m ∈ starRun g f fuel s c → m.rest <:+ s := by
  intro fuel
  induction fuel with
  | zero =>
    intro s c m hm
    rcases starRun_mem_cases hm with rfl | ⟨n, hn, _⟩
    · exact List.suffix_refl s
    · exact absurd hn (by omega)
  | succ n ih =>
    intro s c m hm
    rcases starRun_mem_cases hm with rfl | ⟨n', hn', m1, hm1, _, hmem⟩
    · exact List.suffix_refl s
    · have hn2 : n' = n := by omega
      subst hn2
      exact (ih _ _ _ hmem).trans (hf _ _ _ hm1)

theorem reMatches_suffix : ∀ (re : RE) (s : List Char) (c : Caps) (m : MRes),
    m ∈ reMatches re s c → m.rest <:+ s := by
  intro re
  induction re with
  | eps =>
    intro s c m hm
    simp only [reMatches, List.mem_singleton] at hm
    subst hm
    exact List.suffix_refl s
  | lit ch =>
    intro s c m hm
    cases s with
    | nil => cases hm
    | cons a t =>
      simp only [reMatches] at hm
      split at hm
      · simp only [List.mem_singleton] at hm
        subst hm
        exact List.suffix_cons a t
      · cases hm
  | cls f =>
    intro s c m hm
    cases s with
    | nil => cases hm
    | cons a t =>
      simp only [reMatches] at hm
      split at hm
      · simp only [List.mem_singleton] at hm
        subst hm
        exact List.suffix_cons a t
      · cases hm
  | seq a b iha ihb =>
    intro s c m hm
    simp only [reMatches] at hm
    obtain ⟨m1, hm1, hm2⟩ := List.mem_flatMap.mp hm
    exact (ihb _ _ _ hm2).trans (iha _ _ _ hm1)
  | alt a b iha ihb =>
    intro s c m hm
    simp only [reMatches, List.mem_append] at hm
    rcases hm with h | h
    exacts [iha _ _ _ h, ihb _ _ _ h]
  | starG r ihr =>
    intro s c m hm
    exact starRun_suffix ihr _ _ _ _ hm
  | starL r ihr =>
    intro s c m hm
    exact starRun_suffix ihr _ _ _ _ hm
  | group i r ihr =>
    intro s c m hm
    obtain ⟨m', hm', heq⟩ := mem_reMatches_group.mp hm
    rw [← heq]
    exact ihr s c m' hm'

theorem starRun_caps {g : Bool} {f : List Char → Caps → List MRes}
    (hf : ∀ s c m, m ∈ f s c → m.caps = c) :
    ∀ (fuel : Nat) (s : List Char) (c : Caps) (m : MRes),
      m ∈ starRun g f fuel s c → m.caps = c := by
  intro fuel
  induction fuel with
  | zero =>
    intro s c m hm
    rcases starRun_mem_cases hm with rfl | ⟨n, hn, _⟩
    · rfl
    · exact absurd hn (by omega)
  | succ n ih =>
    intro s c m hm
    rcases starRun_mem_cases hm with rfl | ⟨n', hn', m1, hm1, _, hmem⟩
    · rfl
    · have hn2 : n' = n := by omega
      subst hn2
      exact (ih _ _ _ hmem).trans (hf _ _ _ hm1)

theorem reMatches_caps : ∀ (re : RE), groupFree re = true →
    ∀ (s : List Char) (c : Caps) (m : MRes), m ∈ reMatches re s c → m.caps = c := by
  intro re
  induction re with
  | eps =>
    intro _ s c m hm
    simp only [reMatches, List.mem_singleton] at hm
    subst hm
    rfl
  | lit ch =>
    intro _ s c m hm
    cases s with
    | nil => cases hm
    | cons a t =>
      simp only [reMatches] at hm
      split at hm
      · simp only [List.mem_singleton] at hm
        subst hm
        rfl
      · cases hm
  | cls f =>
    intro _ s c m hm
    cases s with
    | nil => cases hm
    | cons a t =>
      simp only [reMatches] at hm
      split at hm
      · simp only [List.mem_singleton] at hm
        subst hm
        rfl
      · cases hm
  | seq a b iha ihb =>
    intro hgf s c m hm
    simp only [groupFree, Bool.and_eq_true] at hgf
    simp only [reMatches] at hm
    obtain ⟨m1, hm1, hm2⟩ := List.mem_flatMap.mp hm
    exact (ihb hgf.2 _ _ _ hm2).trans (iha hgf.1 _ _ _ hm1)
  | alt a b iha ihb =>
    intro hgf s c m hm
    simp only [groupFree, Bool.and_eq_true] at hgf
    simp only [reMatches, List.mem_append] at hm
    rcases hm with h | h
    exacts [iha hgf.1 _ _ _ h, ihb hgf.2 _ _ _ h]
  | starG r ihr =>
    intro hgf s c m hm
    exact starRun_caps (ihr hgf) _ _ _ _ hm
  | starL r ihr =>
    intro hgf s c m hm
    exact starRun_caps (ihr hgf) _ _ _ _ hm
  | group i r ihr =>
    intro hgf
    cases hgf

theorem take_sub_of_append {d r s : List Char} (h : s = d ++ r) :
    s.take (s.length - r.length) = d := by
  subst h
  rw [List.length_append, Nat.add_sub_cancel, List.take_left]

theorem reStr_sound : ∀ (cs s : List Char) (c : Caps) (m : MRes),
    m ∈ reMatches (reStr cs) s c → s = cs ++ m.rest ∧ m.caps = c := by
  intro cs
  induction cs with
  | nil =>
    intro s c m hm
    simp only [reStr, List.foldr_nil, reMatches, List.mem_singleton] at hm
    subst hm
    exact ⟨rfl, rfl⟩
  | cons ch cs ih =>
    intro s c m hm
    simp only [reStr, List.foldr_cons, reMatches] at hm
    obtain ⟨m1, hm1, hm2⟩ := List.mem_flatMap.mp hm
    cases s with
    | nil => cases hm1
    | cons a t =>
      simp only [reMatches] at hm1
      by_cases hb : (a == ch) = true
      · rw [if_pos hb] at hm1
        simp only [List.mem_singleton] at hm1
        subst hm1
        obtain ⟨h1, h2⟩ := ih t c m hm2
        have ha : a = ch := eq_of_beq hb
        subst ha
        exact ⟨by rw [List.cons_append, ← h1], h2⟩
      · rw [if_neg hb] at hm1
        cases hm1

theorem starRun_cls_sound (f : Char → Bool) (g : Bool) :
    ∀ (fuel : Nat) (s : List Char) (c : Caps) (m : MRes),
      m ∈ starRun g (reMatches (.cls f)) fuel s c →
      ∃ w, s = w ++ m.rest ∧ w.all f = true ∧ m.caps = c := by
  intro fuel
  induction fuel with
  | zero =>
    intro s c m hm
    rcases starRun_mem_cases hm with rfl | ⟨n, hn, _⟩
    · exact ⟨[], rfl, rfl, rfl⟩
    · exact absurd hn (by omega)
  | succ n ih =>
    intro s c m hm
    rcases starRun_mem_cases hm with rfl | ⟨n', hn', m1, hm1, _, hmem⟩
    · exact ⟨[], rfl, rfl, rfl⟩
    · have hn2 : n' = n := by omega
      subst hn2
      cases s with
      | nil => cases hm1
      | cons a t =>
        simp only [reMatches] at hm1
        by_cases hfa : f a = true
        · rw [if_pos hfa] at hm1
          simp only [List.mem_singleton] at hm1
          subst hm1
          obtain ⟨w, hw1, hw2, hw3⟩ := ih t c m hmem
          exact ⟨a :: w, by rw [List.cons_append, ← hw1],
                 by simp [List.all_cons, hfa, hw2], hw3⟩
        · rw [if_neg hfa] at hm1
          cases hm1

theorem wsStar_sound {s : List Char} {c : Caps} {m : MRes}
    (hm : m ∈ reMatches reWS s c) :
    ∃ w, s = w ++ m.rest ∧ w.all jsWS = true ∧ m.caps = c :=
  starRun_cls_sound jsWS true s.length s c m hm

theorem plusLDot_sound {s : List Char} {c : Caps} {m : MRes}
    (hm : m ∈ reMatches (plusL (.cls jsDot)) s c) :
    ∃ d, s = d ++ m.rest ∧ d ≠ [] ∧ m.caps = c := by
  obtain ⟨m1, hm1, hm2⟩ :=
    (mem_reMatches_seq (a := .cls jsDot) (b := .starL (.cls jsDot))).mp hm
  obtain ⟨a, t, rfl, hfa, rfl⟩ := mem_reMatches_cls hm1
  obtain ⟨w, hw1, _, hw3⟩ := starRun_cls_sound jsDot false t.length t c m hm2
  exact ⟨a :: w, by rw [List.cons_append, ← hw1], by simp, hw3⟩

theorem valuesRE_sound {s : List Char} {c : Caps} {m : MRes}
    (hm : m ∈ reMatches valuesRE s c) :
    ∃ v, s = v ++ m.rest ∧ v ≠ [] ∧ m.caps = c := by
  have hcaps : m.caps = c := reMatches_caps valuesRE (by rfl) _ _ _ hm
  obtain ⟨m1, hm1, hm2⟩ := (mem_reMatches_seq
    (a := plusG (.cls nonPipe))
    (b := .starG (.seq (.lit '|') (plusG (.cls nonPipeNL))))).mp hm
  obtain ⟨mc, hmc, hms⟩ := (mem_reMatches_seq
    (a := .cls nonPipe) (b := .starG (.cls nonPipe))).mp hm1
  obtain ⟨a, t, rfl, hfa, rfl⟩ := mem_reMatches_cls hmc
  have hs1 : m1.rest <:+ t := reMatches_suffix _ _ _ _ hms
  have hs2 : m.rest <:+ m1.rest := reMatches_suffix _ _ _ _ hm2
  obtain ⟨v, hv⟩ : m.rest <:+ a :: t :=
    (hs2.trans hs1).trans (List.suffix_cons a t)
  refine ⟨v, hv.symm, ?_, hcaps⟩
  rintro rfl
  have hle1 := hs1.length_le
  have hle2 := hs2.length_le
  have hlen : (a :: t).length = m.rest.length := by rw [← hv]; simp
  simp only [List.length_cons] at hlen
  omega

theorem markerPre_sound {tok s : List Char} {c : Caps} {m : MRes}
    (hm : m ∈ reMatches
      (.seq (reStr tok) (.seq reWS (.seq (reStr cbMarker) reWS))) s c) :
    ∃ w3 w4, s = tok ++ w3 ++ cbMarker ++ w4 ++ m.rest ∧
      w3.all jsWS = true ∧ w4.all jsWS = true ∧ m.caps = c := by
  obtain ⟨m1, hm1, hm'⟩ := mem_reMatches_seq.mp hm
  obtain ⟨m2, hm2, hm''⟩ := mem_reMatches_seq.mp hm'
  obtain ⟨m3, hm3, hm4⟩ := mem_reMatches_seq.mp hm''
  obtain ⟨h1, hc1⟩ := reStr_sound tok s c m1 hm1
  obtain ⟨w3, h2, hw3, hc2⟩ := wsStar_sound hm2
  obtain ⟨h3, hc3⟩ := reStr_sound cbMarker _ _ _ hm3
  obtain ⟨w4, h4, hw4, hc4⟩ := wsStar_sound hm4
  refine ⟨w3, w4, ?_, hw3, hw4, by rw [hc4, hc3, hc2, hc1]⟩
  rw [h1, h2, h3, h4]
  simp [List.append_assoc]

theorem mem_reMatches_lit {ch : Char} {s : List Char} {c : Caps} {m : MRes}
    (hm : m ∈ reMatches (.lit ch) s c) :
    ∃ t, s = ch :: t ∧ m = ⟨t, c⟩ := by
  cases s with
  | nil => cases hm
  | cons a t =>
    simp only [reMatches] at hm
    split at hm
    · next hb =>
      simp only [List.mem_singleton] at hm
      exact ⟨t, by rw [eq_of_beq hb], hm⟩
    · cases hm

theorem exec_sound {r : RE} : ∀ {s : List Char} {caps : Caps},
    exec r s = some caps →
    ∃ pre rest m, s = pre ++ rest ∧ m ∈ reMatches r rest [] ∧ m.caps = caps := by
  intro s
  induction s with
  | nil =>
    intro caps h
    simp only [exec] at h
    rcases hh : (reMatches r [] []).head? with _ | m
    · rw [hh] at h
      cases h
    · rw [hh] at h
      simp only [Option.map_some', Option.some.injEq] at h
      exact ⟨[], [], m, rfl, mem_of_head? hh, h⟩
  | cons ch t ih =>
    intro caps h
    simp only [exec] at h
    rcases hh : (reMatches r (ch :: t) []).head? with _ | m
    · rw [hh] at h
      simp only [Option.map_none', Option.orElse] at h
      obtain ⟨pre, rest, m, h1, h2, h3⟩ := ih h
      exact ⟨ch :: pre, rest, m, by rw [h1, List.cons_append], h2, h3⟩
    · rw [hh] at h
      simp only [Option.map_some', Option.orElse, Option.some.injEq] at h
      exact ⟨[], ch :: t, m, rfl, mem_of_head? hh, h⟩

/-- Decomposition of any match of the toggle's rewrite regex `varRE`: the
matched region splits into the captured groups with only whitespace between
them, and the final capture state is exactly groups 1–4. -/
theorem varRE_decomp {tok rest0 : List Char} {m : MRes}
    (hm : m ∈ reMatches (varRE tok) rest0 []) :
    ∃ g1 w1 g2 w2 w3 w4 g4 : List Char,
      rest0 = g1 ++ '=' ::
        (w1 ++ (g2 ++ (w2 ++ ((tok ++ w3 ++ cbMarker ++ w4) ++ (g4 ++ m.rest))))) ∧
      w1.all jsWS = true ∧ w2.all jsWS = true ∧ w3.all jsWS = true ∧
      w4.all jsWS = true ∧ g2 ≠ [] ∧ g4 ≠ [] ∧
      m.caps = [(4, g4), (3, tok ++ w3 ++ cbMarker ++ w4), (2, g2), (1, g1)] := by
  obtain ⟨mA, hmA, hK0⟩ := mem_reMatches_seq.mp hm
  obtain ⟨m1, hm1, heqA⟩ := mem_reMatches_group.mp hmA
  obtain ⟨g1, hg1, _, hc1⟩ :=
    starRun_cls_sound jsDot true rest0.length rest0 [] m1 hm1
  rw [← heqA, take_sub_of_append hg1, hc1] at hK0
  have hK1 : m ∈ reMatches
      (.seq (.lit '=')
        (.seq reWS
          (.seq (.group 2 (plusL (.cls jsDot)))
            (.seq reWS
              (.seq (.group 3 (.seq (reStr tok)
                  (.seq reWS (.seq (reStr cbMarker) reWS))))
                (.group 4 valuesRE))))))
      m1.rest [(1, g1)] := hK0
  obtain ⟨mE, hmE, hK2x⟩ := mem_reMatches_seq.mp hK1
  obtain ⟨r2, hr2, heqE⟩ := mem_reMatches_lit hmE
  rw [heqE] at hK2x
  have hK2 : m ∈ reMatches
      (.seq reWS
        (.seq (.group 2 (plusL (.cls jsDot)))
          (.seq reWS
            (.seq (.group 3 (.seq (reStr tok)
                (.seq reWS (.seq (reStr cbMarker) reWS))))
              (.group 4 valuesRE)))))
      r2 [(1, g1)] := hK2x
  obtain ⟨mW1, hmW1x, hK3x⟩ := mem_reMatches_seq.mp hK2
  have hmW1 : mW1 ∈ reMatches reWS r2 [(1, g1)] := hmW1x
  obtain ⟨w1, hw1, hw1ws, hcW1⟩ := wsStar_sound hmW1
  rw [hcW1] at hK3x
  have hK3 : m ∈ reMatches
      (.seq (.group 2 (plusL (.cls jsDot)))
        (.seq reWS
          (.seq (.group 3 (.seq (reStr tok)
              (.seq reWS (.seq (reStr cbMarker) reWS))))
            (.group 4 valuesRE))))
      mW1.rest [(1, g1)] := hK3x
  obtain ⟨mG2, hmG2, hK4x⟩ := mem_reMatches_seq.mp hK3
  obtain ⟨m2, hm2, heq2⟩ := mem_reMatches_group.mp hmG2
  obtain ⟨g2, hg2, hg2ne, hc2⟩ := plusLDot_sound hm2
  rw [← heq2, take_sub_of_append hg2, hc2] at hK4x
  have hK4 : m ∈ reMatches
      (.seq reWS
        (.seq (.group 3 (.seq (reStr tok)
            (.seq reWS (.seq (reStr cbMarker) reWS))))
          (.group 4 valuesRE)))
      m2.rest ((2, g2) :: [(1, g1)]) := hK4x
  obtain ⟨mW2, hmW2x, hK5x⟩ := mem_reMatches_seq.mp hK4
  have hmW2 : mW2 ∈ reMatches reWS m2.rest ((2, g2) :: [(1, g1)]) := hmW2x
  obtain ⟨w2, hw2, hw2ws, hcW2⟩ := wsStar_sound hmW2
  rw [hcW2] at hK5x
  have hK5 : m ∈ reMatches
      (.seq (.group 3 (.seq (reStr tok)
          (.seq reWS (.seq (reStr cbMarker) reWS))))
        (.group 4 valuesRE))
      mW2.rest ((2, g2) :: [(1, g1)]) := hK5x
  obtain ⟨mG3, hmG3, hK6x⟩ := mem_reMatches_seq.mp hK5
  obtain ⟨m3, hm3, heq3⟩ := mem_reMatches_group.mp hmG3
  obtain ⟨w3, w4, hg3, hw3ws, hw4ws, hc3⟩ := markerPre_sound hm3
  rw [← heq3, take_sub_of_append hg3, hc3] at hK6x
  have hK6 : m ∈ reMatches (.group 4 valuesRE)
      m3.rest ((3, tok ++ w3 ++ cbMarker ++ w4) :: (2, g2) :: [(1, g1)]) := hK6x
  obtain ⟨m4, hm4x, heq4⟩ := mem_reMatches_group.mp hK6
  have hm4 : m4 ∈ reMatches valuesRE m3.rest
      ((3, tok ++ w3 ++ cbMarker ++ w4) :: (2, g2) :: [(1, g1)]) := hm4x
  obtain ⟨g4, hg4, hg4ne, hc4⟩ := valuesRE_sound hm4
  have hrest : m.rest = m4.rest := by rw [← heq4]
  refine ⟨g1, w1, g2, w2, w3, w4, g4, ?_, hw1ws, hw2ws, hw3ws, hw4ws,
    hg2ne, hg4ne, ?_⟩
  · rw [hg1, hr2, hw1, hg2, hw2, hg3, hg4, hrest]
  · rw [← heq4]
    show (4, List.take (m3.rest.length - m4.rest.length) m3.rest) :: m4.caps = _
    rw [take_sub_of_append hg4, hc4]

/-- C4 (amended): whenever `toggleCheckboxAtLine` rewrites a line, the line
decomposes around the rewrite regex's captured groups — prefix before the
match start, left-hand side `g1`, the `=`, whitespace, raw current value
`g2`, whitespace, comment-prefix-through-marker `tok ++ w3 ++ [CB]: ++ w4`,
and the raw pipe-joined value list `g4` — and the new line is exactly
`g1 ++ "= " ++ newValue ++ " " ++ (tok ++ w3 ++ [CB]: ++ w4) ++ g4`: the
left-hand side, the comment-prefix-through-marker text and the raw value
list are copied through verbatim, but the whitespace around the assigned
value is normalized to single spaces, and anything before the match start or
after the matched value list is dropped.  Only when those whitespace runs
were single spaces and the value list ran to the end of the line does
exactly the assigned value text change (see the counterexample). -/
theorem c4_frame (tok line res : String)
    (h : toggleCheckboxAtLine tok line = some res) :
    ∃ pre g1 w1 g2 w2 w3 w4 g4 tail : List Char,
      line.data = pre ++ (g1 ++ '=' :: (w1 ++ (g2 ++ (w2 ++
        (tok.data ++ (w3 ++ (cbMarker ++ (w4 ++ (g4 ++ tail))))))))) ∧
      w1.all jsWS = true ∧ w2.all jsWS = true ∧
      w3.all jsWS = true ∧ w4.all jsWS = true ∧ g2 ≠ [] ∧ g4 ≠ [] ∧
      res.data = g1 ++ '=' :: ' ' ::
        ((nextValueCalc ((extractCheckboxValuesL g4).map String.mk)
          (String.mk (jsTrim g2))).data ++
          ' ' :: (tok.data ++ (w3 ++ (cbMarker ++ (w4 ++ g4))))) := by
  unfold toggleCheckboxAtLine at h
  rcases hp : toggleParse tok line with _ | p
  · rw [hp] at h
    cases h
  · rw [hp] at h
    simp only [Option.map_some', Option.some.injEq] at h
    unfold toggleParse at hp
    split at hp
    · rename_i caps heqCB heqVar
      split at hp
      · rename_i g1' g2' g3' g4' e1 e2 e3 e4
        cases hp
        obtain ⟨pre, rest0, m, hline, hmem, hcapseq⟩ := exec_sound heqVar
        obtain ⟨g1, w1, g2, w2, w3, w4, g4, hrest0, hw1, hw2, hw3, hw4,
          hg2ne, hg4ne, hcaps⟩ := varRE_decomp hmem
        have hc : caps = [(4, g4), (3, tok.data ++ w3 ++ cbMarker ++ w4),
            (2, g2), (1, g1)] := by rw [← hcapseq, hcaps]
        rw [hc] at e1 e2 e3 e4
        have f1 : g1' = g1 := Option.some.inj (e1.symm.trans (by rfl))
        have f2 : g2' = g2 := Option.some.inj (e2.symm.trans (by rfl))
        have f3 : g3' = tok.data ++ w3 ++ cbMarker ++ w4 :=
          Option.some.inj (e3.symm.trans (by rfl))
        have f4 : g4' = g4 := Option.some.inj (e4.symm.trans (by rfl))
        rw [f1, f2, f3, f4] at h
        refine ⟨pre, g1, w1, g2, w2, w3, w4, g4, m.rest,
          ?_, hw1, hw2, hw3, hw4, hg2ne, hg4ne, ?_⟩
        · rw [hline, hrest0]
          simp [List.append_assoc]
        · rw [← h]
          simp [renderToggle, String.data_append, List.append_assoc]
      · cases hp
    · cases hp

theorem c4_witness :
    ∃ pre g1 w1 g2 w2 w3 w4 g4 tail : List Char,
      ("x = 5 # [CB]: 5|6" : String).data = pre ++ (g1 ++ '=' :: (w1 ++ (g2 ++
        (w2 ++ ("#".data ++ (w3 ++ (cbMarker ++ (w4 ++ (g4 ++ tail))))))))) ∧
      w1.all jsWS = true ∧ w2.all jsWS = true ∧
      w3.all jsWS = true ∧ w4.all jsWS = true ∧ g2 ≠ [] ∧ g4 ≠ [] ∧
      ("x = 6 # [CB]: 5|6" : String).data = g1 ++ '=' :: ' ' ::
        ((nextValueCalc ((extractCheckboxValuesL g4).map String.mk)
          (String.mk (jsTrim g2))).data ++
          ' ' :: ("#".data ++ (w3 ++ (cbMarker ++ (w4 ++ g4))))) :=
  c4_frame "#" "x = 5 # [CB]: 5|6" "x = 6 # [CB]: 5|6" (by decide)

/-! ## Completeness toolkit: computing the committed match on structured
lines.  The engine's result list is in JS priority order, so computing the
head of the list through each quantifier's enumeration mirrors exactly the
backtracking order of a JS engine. -/

theorem starRun_fuel_irrel {g : Bool} {f : List Char → Caps → List MRes} :
    ∀ (fuel fuel' : Nat) (s : List Char) (c : Caps),
      s.length ≤ fuel → s.length ≤ fuel' →
      starRun g f fuel s c = starRun g f fuel' s c := by
  intro fuel
  induction fuel with
  | zero =>
    intro fuel' s c h _
    have hs : s = [] := List.length_eq_zero.mp (by omega)
    subst hs
    cases fuel' with
    | zero => rfl
    | succ n =>
      simp only [starRun]
      have hnil : ((f [] c).flatMap fun m =>
          if m.rest.length < ([] : List Char).length then
            starRun g f n m.rest m.caps else []) = [] := by
        apply List.flatMap_eq_nil_iff.mpr
        intro m _
        rw [if_neg (by simp)]
      rw [hnil]
      cases g <;> simp
  | succ n ih =>
    intro fuel' s c h h'
    cases fuel' with
    | zero =>
      have hs : s = [] := List.length_eq_zero.mp (by omega)
      subst hs
      simp only [starRun]
      have hnil : ((f [] c).flatMap fun m =>
          if m.rest.length < ([] : List Char).length then
            starRun g f n m.rest m.caps else []) = [] := by
        apply List.flatMap_eq_nil_iff.mpr
        intro m _
        rw [if_neg (by simp)]
      rw [hnil]
      cases g <;> simp
    | succ n' =>
      simp only [starRun]
      have hfun : (fun m => if m.rest.length < s.length then
            starRun g f n m.rest m.caps else []) =
          (fun m : MRes => if m.rest.length < s.length then
            starRun g f n' m.rest m.caps else []) := by
        funext m
        by_cases hm : m.rest.length < s.length
        · rw [if_pos hm, if_pos hm]
          exact ih n' m.rest m.caps (by omega) (by omega)
        · rw [if_neg hm, if_neg hm]
      rw [hfun]

theorem headFlatMap {α β : Type} (f : α → List β) :
    ∀ (l₁ : List α) (x : α) (l₂ : List α),
      (∀ y ∈ l₁, f y = []) → f x ≠ [] →
      ((l₁ ++ x :: l₂).flatMap f).head? = (f x).head? := by
  intro l₁
  induction l₁ with
  | nil =>
    intro x l₂ _ hx
    simp only [List.nil_append, List.flatMap_cons, List.head?_append]
    rcases hfx : (f x).head? with _ | b
    · exact absurd (List.head?_eq_none_iff.mp hfx) hx
    · simp [hfx]
  | cons y l₁ ih =>
    intro x l₂ hy hx
    simp only [List.cons_append, List.flatMap_cons, hy y (List.mem_cons_self y l₁),
      List.nil_append]
    exact ih x l₂ (fun z hz => hy z (List.mem_cons_of_mem y hz)) hx

theorem tails_eq_dropLast_append (l : List Char) :
    l.tails = l.tails.dropLast ++ [[]] := by
  induction l with
  | nil => rfl
  | cons a t ih =>
    rw [List.tails_cons]
    have htne : t.tails ≠ [] := by
      cases t <;> simp [List.tails_cons]
    rw [List.dropLast_cons_of_ne_nil htne, List.cons_append]
    congr 1

theorem mem_dropLast_tails_ne_nil {l : List Char} :
    ∀ u ∈ l.tails.dropLast, u ≠ [] ∧ u <:+ l := by
  induction l with
  | nil =>
    intro u hu
    simp at hu
  | cons a t ih =>
    intro u hu
    rw [List.tails_cons] at hu
    have htne : t.tails ≠ [] := by
      cases t <;> simp [List.tails_cons]
    rw [List.dropLast_cons_of_ne_nil htne] at hu
    rcases List.mem_cons.mp hu with rfl | hu'
    · exact ⟨by simp, List.suffix_refl _⟩
    · obtain ⟨hne, hsuf⟩ := ih u hu'
      exact ⟨hne, hsuf.trans (List.suffix_cons a t)⟩

/-- Greedy star of a character class on `w ++ rest` where `w` is in the class
and `rest` does not start in it: the results enumerate the suffixes of `w`
by increasing length (i.e. decreasing consumption is *not* the order —
greedy puts maximal consumption first, which leaves the shortest suffix
first). -/
theorem starG_cls_enum (f : Char → Bool) :
    ∀ (w rest : List Char) (c : Caps), w.all f = true →
      (∀ ch, rest.head? = some ch → f ch = false) →
      reMatches (.starG (.cls f)) (w ++ rest) c =
        w.tails.reverse.map (fun suf => (⟨suf ++ rest, c⟩ : MRes)) := by
  intro w
  induction w with
  | nil =>
    intro rest c _ hrest
    show starRun true (reMatches (.cls f)) rest.length rest c = _
    cases rest with
    | nil => rfl
    | cons b t =>
      simp only [starRun]
      have hfb : f b = false := hrest b rfl
      have : reMatches (.cls f) (b :: t) c = [] := by
        simp [reMatches, hfb]
      rw [this]
      simp
  | cons a w ih =>
    intro rest c hall hrest
    have hfa : f a = true := List.all_eq_true.mp hall a (List.mem_cons_self a w)
    have hall' : w.all f = true := by
      apply List.all_eq_true.mpr
      intro x hx
      exact List.all_eq_true.mp hall x (List.mem_cons_of_mem a hx)
    show starRun true (reMatches (.cls f)) (a :: (w ++ rest)).length
      (a :: (w ++ rest)) c = _
    simp only [List.length_cons, starRun]
    have hbody : reMatches (.cls f) (a :: (w ++ rest)) c = [⟨w ++ rest, c⟩] := by
      simp [reMatches, hfa]
    rw [hbody]
    simp only [List.flatMap_cons, List.flatMap_nil, List.append_nil]
    rw [if_pos (Nat.lt_add_one (w ++ rest).length)]
    have hrec : starRun true (reMatches (.cls f)) (w ++ rest).length
        (w ++ rest) c = w.tails.reverse.map (fun suf => (⟨suf ++ rest, c⟩ : MRes)) :=
      ih rest c hall' hrest
    rw [hrec]
    rw [List.tails_cons, List.reverse_cons, List.map_append]
    rfl

/-- Lazy star of a character class on an input entirely in the class: results
enumerate the suffixes in decreasing length (minimal consumption first). -/
theorem starL_cls_enum (f : Char → Bool) :
    ∀ (s : List Char) (c : Caps), s.all f = true →
      reMatches (.starL (.cls f)) s c =
        s.tails.map (fun suf => (⟨suf, c⟩ : MRes)) := by
  intro s
  induction s with
  | nil =>
    intro c _
    rfl
  | cons a t ih =>
    intro c hall
    have hfa : f a = true := List.all_eq_true.mp hall a (List.mem_cons_self a t)
    have hall' : t.all f = true := by
      apply List.all_eq_true.mpr
      intro x hx
      exact List.all_eq_true.mp hall x (List.mem_cons_of_mem a hx)
    show starRun false (reMatches (.cls f)) (a :: t).length (a :: t) c = _
    simp only [List.length_cons, starRun]
    have hbody : reMatches (.cls f) (a :: t) c = [⟨t, c⟩] := by
      simp [reMatches, hfa]
    rw [hbody]
    simp only [List.flatMap_cons, List.flatMap_nil, List.append_nil]
    rw [if_pos (Nat.lt_add_one t.length)]
    have hrec : starRun false (reMatches (.cls f)) t.length t c =
        t.tails.map (fun suf => (⟨suf, c⟩ : MRes)) := ih c hall'
    rw [hrec, List.tails_cons]
    rfl

theorem lit_exact (ch : Char) (t : List Char) (c : Caps) :
    reMatches (.lit ch) (ch :: t) c = [⟨t, c⟩] := by
  simp [reMatches]

theorem seq_lit_step {ch : Char} {t : List Char} {c : Caps} {K : RE} :
    reMatches (.seq (.lit ch) K) (ch :: t) c = reMatches K t c := by
  show (reMatches (.lit ch) (ch :: t) c).flatMap _ = _
  rw [lit_exact]
  simp

theorem reStr_exact : ∀ (cs t : List Char) (c : Caps),
    reMatches (reStr cs) (cs ++ t) c = [⟨t, c⟩] := by
  intro cs
  induction cs with
  | nil =>
    intro t c
    rfl
  | cons ch cs ih =>
    intro t c
    show reMatches (.seq (.lit ch) (reStr cs)) (ch :: (cs ++ t)) c = _
    rw [seq_lit_step]
    exact ih t c

theorem seq_reStr_step {cs t : List Char} {c : Caps} {K : RE} :
    reMatches (.seq (reStr cs) K) (cs ++ t) c = reMatches K t c := by
  show (reMatches (reStr cs) (cs ++ t) c).flatMap _ = _
  rw [reStr_exact]
  simp

theorem seq_lit_fail {ch : Char} {s : List Char} {c : Caps} {K : RE}
    (h : s.head? ≠ some ch) :
    reMatches (.seq (.lit ch) K) s c = [] := by
  show (reMatches (.lit ch) s c).flatMap _ = _
  cases s with
  | nil => rfl
  | cons a t =>
    have hne : (a == ch) = false := by
      apply beq_eq_false_iff_ne.mpr
      intro hac
      exact h (by simp [hac])
    have : reMatches (.lit ch) (a :: t) c = [] := by
      simp [reMatches, hne]
    rw [this]
    rfl

theorem group_fail {i : Nat} {r : RE} {s : List Char} {c : Caps}
    (h : reMatches r s c = []) : reMatches (.group i r) s c = [] := by
  show (reMatches r s c).map _ = _
  rw [h]
  rfl

theorem seq_fail_left {a b : RE} {s : List Char} {c : Caps}
    (h : reMatches a s c = []) : reMatches (.seq a b) s c = [] := by
  show (reMatches a s c).flatMap _ = _
  rw [h]
  rfl

theorem mandChar_sound : ∀ (re : RE) (c : Char), mandChar c re = true →
    ∀ (s : List Char) (cc : Caps) (m : MRes), m ∈ reMatches re s cc → c ∈ s := by
  intro re
  induction re with
  | eps => intro c h; cases h
  | lit ch =>
    intro c h s cc m hm
    obtain ⟨t, rfl, _⟩ := mem_reMatches_lit hm
    rw [show c = ch from eq_of_beq h]
    exact List.mem_cons_self ch t
  | cls f => intro c h; cases h
  | seq a b iha ihb =>
    intro c h s cc m hm
    obtain ⟨m1, hm1, hm2⟩ := mem_reMatches_seq.mp hm
    rcases Bool.or_eq_true_iff.mp (by simpa [mandChar] using h) with ha | hb
    · exact iha c ha s cc m1 hm1
    · exact (reMatches_suffix a s cc m1 hm1).subset (ihb c hb m1.rest m1.caps m hm2)
  | alt a b iha ihb =>
    intro c h s cc m hm
    simp only [mandChar, Bool.and_eq_true] at h
    rcases List.mem_append.mp hm with h1 | h1
    · exact iha c h.1 s cc m h1
    · exact ihb c h.2 s cc m h1
  | starG r ihr => intro c h; cases h
  | starL r ihr => intro c h; cases h
  | group i r ihr =>
    intro c h s cc m hm
    obtain ⟨m', hm', _⟩ := mem_reMatches_group.mp hm
    exact ihr c h s cc m' hm'

theorem reMatches_nil_of_mandChar {re : RE} {c : Char} {s : List Char}
    {cc : Caps} (hmand : mandChar c re = true) (hnot : c ∉ s) :
    reMatches re s cc = [] := by
  rcases hms : reMatches re s cc with _ | ⟨m, rest⟩
  · rfl
  · exact absurd (mandChar_sound re c hmand s cc m
      (by rw [hms]; exact List.mem_cons_self m rest)) hnot

theorem head?_dropWhile_not (p : Char → Bool) :
    ∀ (l : List Char) (ch : Char), (l.dropWhile p).head? = some ch →
      p ch = false := by
  intro l
  induction l with
  | nil => intro ch h; cases h
  | cons a t ih =>
    intro ch h
    rw [List.dropWhile_cons] at h
    split at h
    · exact ih ch h
    · next hpa =>
      simp only [List.head?_cons, Option.some.injEq] at h
      rw [← h]
      exact Bool.eq_false_iff.mpr hpa

theorem head_dropWhile_append_mem {p : Char → Bool} :
    ∀ (A B : List Char), (∃ x ∈ A, p x = false) →
      ∀ ch, ((A ++ B).dropWhile p).head? = some ch → ch ∈ A := by
  intro A
  induction A with
  | nil =>
    intro B hex ch _
    obtain ⟨x, hx, _⟩ := hex
    cases hx
  | cons a A ih =>
    intro B hex ch h
    rw [List.cons_append, List.dropWhile_cons] at h
    split at h
    · next hpa =>
      have hex' : ∃ x ∈ A, p x = false := by
        obtain ⟨x, hx, hpx⟩ := hex
        rcases List.mem_cons.mp hx with rfl | hx'
        · rw [hpa] at hpx
          cases hpx
        · exact ⟨x, hx', hpx⟩
      exact List.mem_cons_of_mem a (ih B hex' ch h)
    · simp only [List.head?_cons, Option.some.injEq] at h
      subst h
      exact List.mem_cons_self a A

theorem getLast?_dropWhile_of_last_not (p : Char → Bool) :
    ∀ (l : List Char), (∀ ch, l.getLast? = some ch → p ch = false) →
      (l.dropWhile p).getLast? = l.getLast? := by
  intro l
  induction l with
  | nil => intro _; rfl
  | cons a t ih =>
    intro hlast
    rw [List.dropWhile_cons]
    split
    · next hpa =>
      cases t with
      | nil => exact absurd (hlast a rfl) (by simp [hpa])
      | cons b t' =>
        rw [ih (fun ch hch => hlast ch (by rw [List.getLast?_cons_cons]; exact hch))]
        rw [List.getLast?_cons_cons]
    · rfl

theorem jsTrim_eq_self {s : List Char}
    (hh : ∀ ch, s.head? = some ch → jsWS ch = false)
    (hl : ∀ ch, s.getLast? = some ch → jsWS ch = false) :
    jsTrim s = s := by
  unfold jsTrim
  have hd1 : s.dropWhile jsWS = s := by
    cases s with
    | nil => rfl
    | cons a t => rw [List.dropWhile_cons, if_neg (by simp [hh a rfl])]
  rw [hd1]
  have hd2 : s.reverse.dropWhile jsWS = s.reverse := by
    cases hr : s.reverse with
    | nil => rfl
    | cons a t =>
      have hla : s.getLast? = some a := by
        rw [← List.head?_reverse, hr]
        rfl
      rw [List.dropWhile_cons, if_neg (by simp [hl a hla])]
  rw [hd2, List.reverse_reverse]

theorem jsTrim_mem {s : List Char} : ∀ ch ∈ jsTrim s, ch ∈ s := by
  intro ch hch
  unfold jsTrim at hch
  have h1 : ch ∈ (s.dropWhile jsWS).reverse.dropWhile jsWS :=
    List.mem_reverse.mp hch
  have h2 : ch ∈ (s.dropWhile jsWS).reverse :=
    (List.dropWhile_sublist jsWS).mem h1
  have h3 : ch ∈ s.dropWhile jsWS := List.mem_reverse.mp h2
  exact (List.dropWhile_sublist jsWS).mem h3

theorem jsTrim_head_not_ws {s : List Char} :
    ∀ ch, (jsTrim s).head? = some ch → jsWS ch = false := by
  intro ch h
  unfold jsTrim at h
  rw [List.head?_reverse] at h
  rw [getLast?_dropWhile_of_last_not jsWS _ ?hlast] at h
  case hlast =>
    intro ch' hch'
    rw [List.getLast?_reverse] at hch'
    exact head?_dropWhile_not jsWS s ch' hch'
  rw [List.getLast?_reverse] at h
  exact head?_dropWhile_not jsWS s ch h

theorem jsTrim_getLast_not_ws {s : List Char} :
    ∀ ch, (jsTrim s).getLast? = some ch → jsWS ch = false := by
  intro ch h
  unfold jsTrim at h
  rw [List.getLast?_reverse] at h
  exact head?_dropWhile_not jsWS _ ch h

theorem starRun_ne_nil (g : Bool) (f : List Char → Caps → List MRes)
    (fuel : Nat) (s : List Char) (c : Caps) : starRun g f fuel s c ≠ [] := by
  cases fuel with
  | zero => simp [starRun]
  | succ n =>
    simp only [starRun]
    cases g <;> simp

theorem starG_head_step {r : RE} {s : List Char} {c : Caps} {m1 : MRes}
    (hbody : (reMatches r s c).head? = some m1)
    (hprog : m1.rest.length < s.length) :
    (reMatches (.starG r) s c).head? =
      (reMatches (.starG r) m1.rest m1.caps).head? := by
  show (starRun true (reMatches r) s.length s c).head? = _
  obtain ⟨n, hn⟩ : ∃ n, s.length = n + 1 := ⟨s.length - 1, by omega⟩
  rw [hn]
  simp only [starRun]
  obtain ⟨l', hl'⟩ : ∃ l', reMatches r s c = m1 :: l' := by
    rcases hh : reMatches r s c with _ | ⟨x, xs⟩
    · rw [hh] at hbody
      cases hbody
    · rw [hh] at hbody
      simp only [List.head?_cons, Option.some.injEq] at hbody
      subst hbody
      exact ⟨xs, rfl⟩
  rw [hl']
  simp only [List.flatMap_cons]
  rw [if_pos (by omega)]
  rw [List.head?_append, List.head?_append]
  have hfi : starRun true (reMatches r) n m1.rest m1.caps =
      starRun true (reMatches r) m1.rest.length m1.rest m1.caps :=
    starRun_fuel_irrel n m1.rest.length m1.rest m1.caps (by omega) (le_refl _)
  rw [hfi]
  rcases hh : (starRun true (reMatches r) m1.rest.length m1.rest m1.caps).head?
    with _ | x
  · exact absurd (List.head?_eq_none_iff.mp hh)
      (starRun_ne_nil true (reMatches r) m1.rest.length m1.rest m1.caps)
  · exact hh.symm

theorem reWS_enum (w rest : List Char) (c : Caps) (hw : w.all jsWS = true)
    (hrest : ∀ ch, rest.head? = some ch → jsWS ch = false) :
    reMatches reWS (w ++ rest) c =
      w.tails.reverse.map (fun suf => (⟨suf ++ rest, c⟩ : MRes)) :=
  starG_cls_enum jsWS w rest c hw hrest

theorem ws_headtok_fail {tokc : Char} {B : RE} {s : List Char} {c : Caps}
    (htok : jsWS tokc = false)
    (hB : ∀ (s' : List Char) (c' : Caps), s'.head? ≠ some tokc →
      reMatches B s' c' = [])
    (hfn : ∀ ch, (s.dropWhile jsWS).head? = some ch → ch ≠ tokc) :
    reMatches (.seq reWS B) s c = [] := by
  show (reMatches reWS s c).flatMap _ = _
  have hsplit : reMatches reWS s c = reMatches reWS
      (s.takeWhile jsWS ++ s.dropWhile jsWS) c := by
    rw [List.takeWhile_append_dropWhile]
  rw [hsplit, reWS_enum _ _ c
    (List.all_eq_true.mpr fun x hx => List.mem_takeWhile_imp hx)
    (fun ch hch => head?_dropWhile_not jsWS s ch hch)]
  rw [List.flatMap_map]
  apply List.flatMap_eq_nil_iff.mpr
  intro u hu
  show reMatches B (u ++ s.dropWhile jsWS) c = []
  cases u with
  | nil =>
    apply hB
    intro hhd
    rw [List.nil_append] at hhd
    obtain ⟨ch, hch⟩ : ∃ ch, (s.dropWhile jsWS).head? = some ch := ⟨tokc, hhd⟩
    exact hfn ch hch (by rw [hch] at hhd; exact Option.some.inj hhd)
  | cons a u' =>
    apply hB
    intro hhd
    simp only [List.cons_append, List.head?_cons, Option.some.injEq] at hhd
    subst hhd
    have hmem : a ∈ s.takeWhile jsWS := by
      have hsuf : (a :: u') <:+ s.takeWhile jsWS :=
        List.mem_tails _ _ |>.mp (List.mem_reverse.mp hu)
      exact hsuf.subset (List.mem_cons_self a u')
    rw [List.mem_takeWhile_imp hmem] at htok
    cases htok

theorem head_seq_ws {w rest : List Char} {c : Caps} {K : RE}
    (hw : w.all jsWS = true)
    (hrest : ∀ ch, rest.head? = some ch → jsWS ch = false)
    (hKne : reMatches K rest c ≠ []) :
    (reMatches (.seq reWS K) (w ++ rest) c).head? =
      (reMatches K rest c).head? := by
  show ((reMatches reWS (w ++ rest) c).flatMap _).head? = _
  rw [reWS_enum w rest c hw hrest, List.flatMap_map]
  have htails : w.tails.reverse = [] ++ [] :: w.tails.dropLast.reverse := by
    conv_lhs => rw [tails_eq_dropLast_append w]
    rw [List.reverse_append]
    rfl
  rw [htails]
  exact headFlatMap _ [] [] _ (fun y hy => absurd hy (List.not_mem_nil y))
    (by simpa using hKne)

theorem exec_commit {r : RE} {s : List Char} {m : MRes}
    (h : (reMatches r s []).head? = some m) : exec r s = some m.caps := by
  cases s with
  | nil => simp [exec, h]
  | cons a t => simp [exec, h, Option.orElse]

theorem exec_skip_cons {r : RE} {a : Char} {t : List Char}
    (h : reMatches r (a :: t) [] = []) : exec r (a :: t) = exec r t := by
  simp [exec, h, Option.orElse]

theorem exec_skip_run {r : RE} :
    ∀ (pre rest : List Char),
      (∀ a ∈ pre, ∀ t, reMatches r (a :: t) [] = []) →
      exec r (pre ++ rest) = exec r rest := by
  intro pre
  induction pre with
  | nil => intro rest _; rfl
  | cons a pre ih =>
    intro rest hfail
    rw [List.cons_append,
      exec_skip_cons (hfail a (List.mem_cons_self a pre) (pre ++ rest))]
    exact ih rest (fun b hb t => hfail b (List.mem_cons_of_mem a hb) t)

theorem cons_of_head? {α : Type} {l : List α} {a : α} (h : l.head? = some a) :
    ∃ t, l = a :: t := by
  cases l with
  | nil => cases h
  | cons x xs =>
    rw [List.head?_cons] at h
    exact ⟨xs, by rw [Option.some.inj h]⟩

theorem ne_nil_of_head {α : Type} {l : List α} {a : α} (h : l.head? = some a) :
    l ≠ [] := by
  intro hn
  rw [hn] at h
  cases h

theorem head_seq {a b : RE} {s : List Char} {c : Caps} {m1 : MRes}
    (h1 : (reMatches a s c).head? = some m1)
    (h2 : reMatches b m1.rest m1.caps ≠ []) :
    (reMatches (.seq a b) s c).head? = (reMatches b m1.rest m1.caps).head? := by
  show ((reMatches a s c).flatMap _).head? = _
  obtain ⟨l', hl'⟩ := cons_of_head? h1
  rw [hl', List.flatMap_cons, List.head?_append]
  rcases hh : (reMatches b m1.rest m1.caps).head? with _ | x
  · exact absurd (List.head?_eq_none_iff.mp hh) h2
  · rfl

theorem starG_cls_head {f : Char → Bool} {w rest : List Char} {c : Caps}
    (hw : w.all f = true)
    (hrest : ∀ ch, rest.head? = some ch → f ch = false) :
    (reMatches (.starG (.cls f)) (w ++ rest) c).head? = some ⟨rest, c⟩ := by
  rw [starG_cls_enum f w rest c hw hrest]
  rw [tails_eq_dropLast_append w, List.reverse_append]
  rfl

theorem reWS_head {w rest : List Char} {c : Caps}
    (hw : w.all jsWS = true)
    (hrest : ∀ ch, rest.head? = some ch → jsWS ch = false) :
    (reMatches reWS (w ++ rest) c).head? = some ⟨rest, c⟩ :=
  starG_cls_head hw hrest

theorem plusG_cls_head {f : Char → Bool} {seg rest : List Char} {c : Caps}
    (hne : seg ≠ []) (hall : seg.all f = true)
    (hrest : ∀ ch, rest.head? = some ch → f ch = false) :
    (reMatches (plusG (.cls f)) (seg ++ rest) c).head? = some ⟨rest, c⟩ := by
  cases seg with
  | nil => exact absurd rfl hne
  | cons a t =>
    have hfa : f a = true := List.all_eq_true.mp hall a (List.mem_cons_self a t)
    have hall' : t.all f = true := List.all_eq_true.mpr
      (fun x hx => List.all_eq_true.mp hall x (List.mem_cons_of_mem a hx))
    show ((reMatches (.cls f) (a :: (t ++ rest)) c).flatMap _).head? = _
    have hcls : reMatches (.cls f) (a :: (t ++ rest)) c = [⟨t ++ rest, c⟩] := by
      simp [reMatches, hfa]
    rw [hcls, List.flatMap_cons, List.flatMap_nil, List.append_nil]
    exact starG_cls_head hall' hrest

theorem all_nonPipe_of_nonPipeNL {sg : List Char} (h : sg.all nonPipeNL = true) :
    sg.all nonPipe = true := by
  apply List.all_eq_true.mpr
  intro x hx
  have hnl : nonPipeNL x = true := List.all_eq_true.mp h x hx
  simp only [nonPipeNL, Bool.not_eq_true', Bool.or_eq_false_iff] at hnl
  simp only [nonPipe, Bool.not_eq_true', hnl.1]

theorem pipes_head_not_nonPipe {r : List (List Char)} :
    ∀ ch, (pipes r).head? = some ch → nonPipe ch = false := by
  intro ch h
  cases r with
  | nil => cases h
  | cons b t =>
    have : ch = '|' := by
      simp only [pipes, List.head?_cons, Option.some.injEq] at h
      exact h.symm
    rw [this]
    rfl

theorem pipes_head_not_nonPipeNL {r : List (List Char)} :
    ∀ ch, (pipes r).head? = some ch → nonPipeNL ch = false := by
  intro ch h
  cases r with
  | nil => cases h
  | cons b t =>
    have : ch = '|' := by
      simp only [pipes, List.head?_cons, Option.some.injEq] at h
      exact h.symm
    rw [this]
    rfl

theorem pipeStar_head : ∀ (segs : List (List Char)) (c : Caps),
    (∀ sg ∈ segs, sg ≠ [] ∧ sg.all nonPipeNL = true) →
    (reMatches (.starG (.seq (.lit '|') (plusG (.cls nonPipeNL))))
      (pipes segs) c).head? = some ⟨[], c⟩ := by
  intro segs
  induction segs with
  | nil => intro c _; rfl
  | cons sg r ih =>
    intro c hsegs
    obtain ⟨hne, hall⟩ := hsegs sg (List.mem_cons_self sg r)
    have hbody : (reMatches (.seq (.lit '|') (plusG (.cls nonPipeNL)))
        (pipes (sg :: r)) c).head? = some ⟨pipes r, c⟩ := by
      show (reMatches (.seq (.lit '|') (plusG (.cls nonPipeNL)))
        ('|' :: (sg ++ pipes r)) c).head? = _
      rw [seq_lit_step]
      exact plusG_cls_head hne hall (fun ch hch => pipes_head_not_nonPipeNL ch hch)
    have hprog : (pipes r).length < (pipes (sg :: r)).length := by
      show (pipes r).length < ('|' :: (sg ++ pipes r)).length
      simp
      omega
    rw [starG_head_step hbody hprog]
    exact ih c (fun x hx => hsegs x (List.mem_cons_of_mem sg hx))

theorem joinPipe_eq_pipes : ∀ (s : List Char) (r : List (List Char)),
    joinPipe (s :: r) = s ++ pipes r := by
  intro s r
  cases r with
  | nil => simp [joinPipe, pipes]
  | cons b t =>
    show s ++ '|' :: joinPipe (b :: t) = s ++ '|' :: (b ++ pipes t)
    rw [joinPipe_eq_pipes b t]

theorem valuesRE_head {seg0 : List Char} {segs : List (List Char)} {c : Caps}
    (hsegs : ∀ sg ∈ seg0 :: segs, sg ≠ [] ∧ sg.all nonPipeNL = true) :
    (reMatches valuesRE (joinPipe (seg0 :: segs)) c).head? = some ⟨[], c⟩ := by
  obtain ⟨h0ne, h0all⟩ := hsegs seg0 (List.mem_cons_self seg0 segs)
  rw [joinPipe_eq_pipes]
  have h1 : (reMatches (plusG (.cls nonPipe)) (seg0 ++ pipes segs) c).head? =
      some ⟨pipes segs, c⟩ :=
    plusG_cls_head h0ne (all_nonPipe_of_nonPipeNL h0all)
      (fun ch hch => pipes_head_not_nonPipe ch hch)
  have h2 : reMatches (.starG (.seq (.lit '|') (plusG (.cls nonPipeNL))))
      (pipes segs) c ≠ [] :=
    starRun_ne_nil true _ _ _ _
  rw [show valuesRE = .seq (plusG (.cls nonPipe))
    (.starG (.seq (.lit '|') (plusG (.cls nonPipeNL)))) from rfl]
  rw [head_seq h1 h2]
  exact pipeStar_head segs c (fun x hx => hsegs x (List.mem_cons_of_mem seg0 hx))

theorem reStr_head_fail {tok0 : Char} {tokR s : List Char} {c : Caps}
    (h : s.head? ≠ some tok0) :
    reMatches (reStr (tok0 :: tokR)) s c = [] := by
  show reMatches (.seq (.lit tok0) (reStr tokR)) s c = []
  exact seq_lit_fail h

theorem getLast?_of_suffix {u A : List Char} (hsuf : u <:+ A) (hne : u ≠ []) :
    u.getLast? = A.getLast? := by
  obtain ⟨p, hp⟩ := hsuf
  rw [← hp]
  exact (List.getLast?_append_of_ne_nil p hne).symm

theorem splitPipe_append_no_pipe :
    ∀ (s x : List Char) (h : List Char) (r : List (List Char)),
      '|' ∉ s → splitPipe x = h :: r → splitPipe (s ++ x) = (s ++ h) :: r := by
  intro s
  induction s with
  | nil =>
    intro x h r _ hx
    simpa using hx
  | cons a s ih =>
    intro x h r hnp hx
    have hane : (a == '|') = false := by
      apply beq_eq_false_iff_ne.mpr
      intro ha
      exact hnp (by rw [ha]; exact List.mem_cons_self '|' s)
    have hrec : splitPipe (s ++ x) = (s ++ h) :: r :=
      ih x h r (fun hm => hnp (List.mem_cons_of_mem a hm)) hx
    show splitPipe (a :: (s ++ x)) = ((a :: s) ++ h) :: r
    simp only [splitPipe, hane, Bool.false_eq_true, if_false, hrec,
      List.cons_append]

theorem splitPipe_joinPipe : ∀ (seg0 : List Char) (segs : List (List Char)),
    (∀ sg ∈ seg0 :: segs, '|' ∉ sg) →
    splitPipe (joinPipe (seg0 :: segs)) = seg0 :: segs := by
  intro seg0 segs
  induction segs generalizing seg0 with
  | nil =>
    intro hnp
    show splitPipe (joinPipe [seg0]) = [seg0]
    have h0 : '|' ∉ seg0 := hnp seg0 (List.mem_cons_self seg0 [])
    have : joinPipe [seg0] = seg0 ++ [] := by simp [joinPipe]
    rw [this, splitPipe_append_no_pipe seg0 [] [] [] h0 rfl, List.append_nil]
  | cons b t ih =>
    intro hnp
    have h0 : '|' ∉ seg0 := hnp seg0 (List.mem_cons_self seg0 (b :: t))
    have hx : splitPipe ('|' :: joinPipe (b :: t)) = [] :: (b :: t) := by
      simp only [splitPipe, beq_self_eq_true, if_true]
      rw [ih b (fun sg hsg => hnp sg (List.mem_cons_of_mem seg0 hsg))]
    have hjoin : joinPipe (seg0 :: b :: t) = seg0 ++ '|' :: joinPipe (b :: t) := rfl
    rw [hjoin, splitPipe_append_no_pipe seg0 _ [] (b :: t) h0 hx,
      List.append_nil]

theorem mem_joinPipe {ch : Char} {sg : List Char} :
    ∀ (l : List (List Char)), sg ∈ l → ch ∈ sg → ch ∈ joinPipe l := by
  intro l
  induction l with
  | nil => intro h; cases h
  | cons b t ih =>
    intro hsg hch
    rcases List.mem_cons.mp hsg with rfl | hsg'
    · cases t with
      | nil => exact hch
      | cons u v =>
        show ch ∈ sg ++ '|' :: joinPipe (u :: v)
        exact List.mem_append_left _ hch
    · cases t with
      | nil => cases hsg'
      | cons u v =>
        show ch ∈ b ++ '|' :: joinPipe (u :: v)
        apply List.mem_append_right
        exact List.mem_cons_of_mem '|' (ih hsg' hch)

theorem mem_tails_tail {u t : List Char} {e : Char}
    (h : u ∈ (e :: t).tails.tail) : u <:+ t := by
  rw [List.tails_cons] at h
  exact (List.mem_tails u t).mp h

theorem head_group_lazy_dot {g : Nat} {a : Char} {vt R : List Char} {c : Caps}
    {K2 : RE}
    (hdot : ((a :: vt) ++ R).all jsDot = true)
    (hfail : ∀ u, u ≠ [] → u <:+ vt → ∀ cc : Caps, reMatches K2 (u ++ R) cc = [])
    (hne : reMatches K2 R ((g, a :: vt) :: c) ≠ []) :
    (reMatches (.seq (.group g (plusL (.cls jsDot))) K2) ((a :: vt) ++ R) c).head? =
      (reMatches K2 R ((g, a :: vt) :: c)).head? := by
  rw [List.cons_append] at hdot ⊢
  have hda : jsDot a = true := List.all_eq_true.mp hdot a (List.mem_cons_self _ _)
  have hdot' : (vt ++ R).all jsDot = true := List.all_eq_true.mpr
    (fun x hx => List.all_eq_true.mp hdot x (List.mem_cons_of_mem a hx))
  have htake : (a :: (vt ++ R)).take ((a :: (vt ++ R)).length - R.length) =
      a :: vt := take_sub_of_append (by rw [List.cons_append])
  have htails : (vt ++ R).tails =
      vt.tails.dropLast.map (· ++ R) ++ R :: R.tails.tail := by
    rw [List.tails_append]
    conv_lhs => rw [tails_eq_dropLast_append vt]
    rw [List.map_append]
    simp [List.append_assoc]
  have hlist : reMatches (.seq (.group g (plusL (.cls jsDot))) K2)
      (a :: (vt ++ R)) c =
      (vt.tails.dropLast.map (· ++ R) ++ R :: R.tails.tail).flatMap
        (fun suf => reMatches K2 suf
          ((g, (a :: (vt ++ R)).take ((a :: (vt ++ R)).length - suf.length)) ::
            c)) := by
    show ((reMatches (plusL (.cls jsDot)) (a :: (vt ++ R)) c).map _).flatMap _ = _
    have hplus : reMatches (plusL (.cls jsDot)) (a :: (vt ++ R)) c =
        (vt ++ R).tails.map (fun suf => (⟨suf, c⟩ : MRes)) := by
      show (reMatches (.cls jsDot) (a :: (vt ++ R)) c).flatMap _ = _
      have hcls : reMatches (.cls jsDot) (a :: (vt ++ R)) c =
          [⟨vt ++ R, c⟩] := by
        simp [reMatches, hda]
      rw [hcls, List.flatMap_cons, List.flatMap_nil, List.append_nil]
      exact starL_cls_enum jsDot (vt ++ R) c hdot'
    rw [hplus, htails, List.map_map, List.flatMap_map]
    rfl
  rw [hlist]
  have hA : ∀ y ∈ vt.tails.dropLast.map (· ++ R),
      reMatches K2 y
        ((g, (a :: (vt ++ R)).take ((a :: (vt ++ R)).length - y.length)) :: c) =
        [] := by
    intro y hy
    obtain ⟨u, hu, rfl⟩ := List.mem_map.mp hy
    obtain ⟨hune, husuf⟩ := mem_dropLast_tails_ne_nil u hu
    exact hfail u hune husuf _
  have hx : reMatches K2 R
      ((g, (a :: (vt ++ R)).take ((a :: (vt ++ R)).length - R.length)) :: c) ≠
      [] := by
    rw [htake]
    exact hne
  rw [headFlatMap _ _ R _ hA hx, htake]

theorem head_group_star_dot {g : Nat} {nm uEq : List Char} {c : Caps} {K : RE}
    (hdotL : (nm ++ uEq).all jsDot = true)
    (hfail : ∀ u, u <:+ uEq.tail → ∀ cc : Caps, reMatches K u cc = [])
    (huEq : uEq ≠ [])
    (hne : reMatches K uEq ((g, nm) :: c) ≠ []) :
    (reMatches (.seq (.group g (.starG (.cls jsDot))) K) (nm ++ uEq) c).head? =
      (reMatches K uEq ((g, nm) :: c)).head? := by
  have htake : (nm ++ uEq).take ((nm ++ uEq).length - uEq.length) = nm :=
    take_sub_of_append rfl
  have hstar : reMatches (.starG (.cls jsDot)) (nm ++ uEq) c =
      (nm ++ uEq).tails.reverse.map (fun suf => (⟨suf, c⟩ : MRes)) := by
    have h := starG_cls_enum jsDot (nm ++ uEq) [] c hdotL
      (fun ch hch => by cases hch)
    simpa using h
  have htails : (nm ++ uEq).tails.reverse =
      uEq.tails.tail.reverse ++ uEq ::
        (nm.tails.dropLast.map (· ++ uEq)).reverse := by
    rw [List.tails_append]
    conv_lhs => rw [tails_eq_dropLast_append nm]
    rw [List.map_append, List.reverse_append, List.reverse_append]
    simp [List.append_assoc]
  have hlist : reMatches (.seq (.group g (.starG (.cls jsDot))) K)
      (nm ++ uEq) c =
      (uEq.tails.tail.reverse ++ uEq ::
          (nm.tails.dropLast.map (· ++ uEq)).reverse).flatMap
        (fun suf => reMatches K suf
          ((g, (nm ++ uEq).take ((nm ++ uEq).length - suf.length)) :: c)) := by
    show ((reMatches (.starG (.cls jsDot)) (nm ++ uEq) c).map _).flatMap _ = _
    rw [hstar, htails, List.map_map, List.flatMap_map]
    rfl
  rw [hlist]
  have hA : ∀ y ∈ uEq.tails.tail.reverse,
      reMatches K y
        ((g, (nm ++ uEq).take ((nm ++ uEq).length - y.length)) :: c) = [] := by
    intro y hy
    have hy' : y ∈ uEq.tails.tail := List.mem_reverse.mp hy
    have hsuf : y <:+ uEq.tail := by
      cases uEq with
      | nil => cases hy'
      | cons e t => exact mem_tails_tail hy'
    exact hfail y hsuf _
  have hx : reMatches K uEq
      ((g, (nm ++ uEq).take ((nm ++ uEq).length - uEq.length)) :: c) ≠ [] := by
    rw [htake]
    exact hne
  rw [headFlatMap _ _ uEq _ hA hx, htake]

theorem jsTrim_idem (s : List Char) : jsTrim (jsTrim s) = jsTrim s :=
  jsTrim_eq_self (fun ch h => jsTrim_head_not_ws ch h)
    (fun ch h => jsTrim_getLast_not_ws ch h)

theorem nextValueCalc_mem {values : List String} (h : values ≠ []) (cur : String) :
    nextValueCalc values cur ∈ values := by
  unfold nextValueCalc
  simp only []
  split
  · next hcond =>
    rcases jsIndexOf_cases values cur with hneg | ⟨hge, hlt⟩
    · exact absurd hneg hcond.1
    · have hlt1 : (jsIndexOf values cur).toNat + 1 < values.length := by
        obtain ⟨_, h2⟩ := hcond
        omega
      rw [getD_eq_get hlt1]
      exact List.get_mem _ _ _
  · have h0 : 0 < values.length := List.length_pos.mpr h
    rw [getD_eq_get h0]
    exact List.get_mem _ _ _

theorem cbMarker_head_not_ws {X : List Char} :
    ∀ ch, (cbMarker ++ X).head? = some ch → jsWS ch = false := by
  intro ch hch
  have he : ch = '[' := by
    simp only [cbMarker, List.cons_append, List.head?_cons, Option.some.injEq] at hch
    exact hch.symm
  rw [he]
  decide

theorem tok_head_not_ws {tok0 : Char} {tokR X : List Char}
    (htokws : jsWS tok0 = false) :
    ∀ ch, ((tok0 :: tokR) ++ X).head? = some ch → jsWS ch = false := by
  intro ch hch
  simp only [List.cons_append, List.head?_cons, Option.some.injEq] at hch
  rw [← hch]
  exact htokws

theorem joinPipe_head_not_ws {seg0 : List Char} {segs : List (List Char)}
    (hne : seg0 ≠ []) (hseg0h : ∀ ch ∈ seg0.take 1, jsWS ch = false) :
    ∀ ch, (joinPipe (seg0 :: segs)).head? = some ch → jsWS ch = false := by
  intro ch hch
  rw [joinPipe_eq_pipes] at hch
  cases seg0 with
  | nil => exact absurd rfl hne
  | cons s0 s0t =>
    simp only [List.cons_append, List.head?_cons, Option.some.injEq] at hch
    rw [← hch]
    exact hseg0h s0 (by simp)

theorem K2ex_fail {tok0 : Char} {tokR s : List Char} {cc : Caps}
    (htokws : jsWS tok0 = false)
    (hfn : ∀ ch, (s.dropWhile jsWS).head? = some ch → ch ≠ tok0) :
    reMatches (.seq reWS (.seq (reStr (tok0 :: tokR))
      (.seq reWS (reStr cbMarker)))) s cc = [] :=
  ws_headtok_fail htokws
    (fun _ _ h => seq_fail_left (reStr_head_fail h)) hfn

theorem K2var_fail {tok0 : Char} {tokR s : List Char} {cc : Caps}
    (htokws : jsWS tok0 = false)
    (hfn : ∀ ch, (s.dropWhile jsWS).head? = some ch → ch ≠ tok0) :
    reMatches (.seq reWS (.seq (.group 3 (.seq (reStr (tok0 :: tokR))
        (.seq reWS (.seq (reStr cbMarker) reWS))))
      (.group 4 valuesRE))) s cc = [] :=
  ws_headtok_fail htokws
    (fun _ _ h => seq_fail_left (group_fail (seq_fail_left (reStr_head_fail h))))
    hfn

theorem vtext_suffix_head_ne {tok0 : Char} {vtext R : List Char}
    (hvl : ∀ ch, vtext.getLast? = some ch → jsWS ch = false)
    (htokvt : tok0 ∉ vtext) :
    ∀ u, u ≠ [] → u <:+ vtext.tail →
      ∀ ch, ((u ++ R).dropWhile jsWS).head? = some ch → ch ≠ tok0 := by
  intro u hune husuf ch hch
  cases vtext with
  | nil =>
    exact absurd (List.suffix_nil.mp husuf) hune
  | cons v0 vt' =>
    have hvt'ne : vt' ≠ [] := by
      intro h
      subst h
      exact hune (List.suffix_nil.mp husuf)
    have hlast_eq : u.getLast? = (v0 :: vt').getLast? :=
      (getLast?_of_suffix husuf hune).trans
        (getLast?_of_suffix (List.suffix_cons v0 vt') hvt'ne)
    obtain ⟨x, hx⟩ : ∃ x, u.getLast? = some x := by
      cases u with
      | nil => exact absurd rfl hune
      | cons a t => exact ⟨(a :: t).getLast (by simp), List.getLast?_eq_getLast _ _⟩
    have hxws : jsWS x = false := hvl x (hlast_eq ▸ hx)
    have hxmem : x ∈ u := List.mem_of_mem_getLast? hx
    have hchmem : ch ∈ u := head_dropWhile_append_mem u R ⟨x, hxmem, hxws⟩ ch hch
    intro hcheq
    subst hcheq
    exact htokvt (List.mem_cons_of_mem v0 (husuf.subset hchmem))

theorem K2ex_head {tok0 : Char} {tokR w2 w3 w4 jp : List Char} {cc : Caps}
    (htokws : jsWS tok0 = false)
    (hw2 : w2.all jsWS = true) (hw3 : w3.all jsWS = true) :
    (reMatches (.seq reWS (.seq (reStr (tok0 :: tokR))
        (.seq reWS (reStr cbMarker))))
      (w2 ++ ((tok0 :: tokR) ++ (w3 ++ (cbMarker ++ (w4 ++ jp))))) cc).head? =
      some ⟨w4 ++ jp, cc⟩ := by
  have h3 : (reMatches (reStr cbMarker) (cbMarker ++ (w4 ++ jp)) cc).head? =
      some ⟨w4 ++ jp, cc⟩ := by
    rw [reStr_exact]
    rfl
  have h2 : (reMatches (.seq reWS (reStr cbMarker))
      (w3 ++ (cbMarker ++ (w4 ++ jp))) cc).head? = some ⟨w4 ++ jp, cc⟩ := by
    rw [head_seq_ws hw3 cbMarker_head_not_ws (ne_nil_of_head h3)]
    exact h3
  have h1 : (reMatches (.seq (reStr (tok0 :: tokR)) (.seq reWS (reStr cbMarker)))
      ((tok0 :: tokR) ++ (w3 ++ (cbMarker ++ (w4 ++ jp)))) cc).head? =
      some ⟨w4 ++ jp, cc⟩ := by
    rw [seq_reStr_step]
    exact h2
  rw [head_seq_ws hw2 (tok_head_not_ws htokws) (ne_nil_of_head h1)]
  exact h1

theorem extract_family (tok0 : Char) (tokR nm w1 vtext w2 w3 w4 jp : List Char)
    (hw1 : w1.all jsWS = true) (hw2 : w2.all jsWS = true)
    (hw3 : w3.all jsWS = true)
    (hvt : vtext ≠ []) (htrim : jsTrim vtext = vtext)
    (htokws : jsWS tok0 = false) (htokvt : tok0 ∉ vtext)
    (heqnm : '=' ∉ nm)
    (hdotL : (famLine (tok0 :: tokR) nm w1 vtext w2 w3 w4 jp).all jsDot = true) :
    exec (extractRE (tok0 :: tokR))
      (famLine (tok0 :: tokR) nm w1 vtext w2 w3 w4 jp) = some [(1, vtext)] := by
  obtain ⟨v0, vt', rfl⟩ : ∃ v0 vt', vtext = v0 :: vt' := by
    cases vtext with
    | nil => exact absurd rfl hvt
    | cons a t => exact ⟨a, t, rfl⟩
  have hL : famLine (tok0 :: tokR) nm w1 (v0 :: vt') w2 w3 w4 jp =
      nm ++ '=' :: (w1 ++ ((v0 :: vt') ++ (w2 ++ ((tok0 :: tokR) ++ (w3 ++ (cbMarker ++ (w4 ++ jp))))))) := rfl
  have hvh : ∀ ch, ((v0 :: vt') : List Char).head? = some ch → jsWS ch = false :=
    fun ch h => jsTrim_head_not_ws ch (by rw [htrim]; exact h)
  have hvl : ∀ ch, ((v0 :: vt') : List Char).getLast? = some ch →
      jsWS ch = false :=
    fun ch h => jsTrim_getLast_not_ws ch (by rw [htrim]; exact h)
  have hdotvR : (((v0 :: vt') ++ (w2 ++ ((tok0 :: tokR) ++ (w3 ++ (cbMarker ++ (w4 ++ jp)))))) : List Char).all jsDot = true := by
    apply List.all_eq_true.mpr
    intro x hx
    exact List.all_eq_true.mp hdotL x (by
      rw [hL]
      exact List.mem_append_right nm (List.mem_cons_of_mem '='
        (List.mem_append_right w1 hx)))
  have hrest1 : ∀ ch, (((v0 :: vt') ++ (w2 ++ ((tok0 :: tokR) ++ (w3 ++ (cbMarker ++ (w4 ++ jp)))))) : List Char).head? = some ch →
      jsWS ch = false := by
    intro ch hch
    simp only [List.cons_append, List.head?_cons, Option.some.injEq] at hch
    rw [← hch]
    exact hvh v0 rfl
  have hK2head : ∀ cc : Caps,
      (reMatches (.seq reWS (.seq (reStr (tok0 :: tokR)) (.seq reWS (reStr cbMarker)))) (w2 ++ ((tok0 :: tokR) ++ (w3 ++ (cbMarker ++ (w4 ++ jp))))) cc).head? = some ⟨w4 ++ jp, cc⟩ :=
    fun cc => K2ex_head htokws hw2 hw3
  have hlazy : (reMatches (.seq (.group 1 (plusL (.cls jsDot))) (.seq reWS (.seq (reStr (tok0 :: tokR)) (.seq reWS (reStr cbMarker)))))
      ((v0 :: vt') ++ (w2 ++ ((tok0 :: tokR) ++ (w3 ++ (cbMarker ++ (w4 ++ jp)))))) []).head? = some ⟨w4 ++ jp, [(1, v0 :: vt')]⟩ := by
    rw [head_group_lazy_dot hdotvR
      (fun u hu hsuf cc => K2ex_fail htokws
        (vtext_suffix_head_ne hvl htokvt u hu hsuf))
      (ne_nil_of_head (hK2head [(1, v0 :: vt')]))]
    exact hK2head [(1, v0 :: vt')]
  have halt : (reMatches (.seq (.alt (.group 1 (plusL (.cls jsDot))) .eps) (.seq reWS (.seq (reStr (tok0 :: tokR)) (.seq reWS (reStr cbMarker)))))
      ((v0 :: vt') ++ (w2 ++ ((tok0 :: tokR) ++ (w3 ++ (cbMarker ++ (w4 ++ jp)))))) []).head? = some ⟨w4 ++ jp, [(1, v0 :: vt')]⟩ := by
    have hsplit : reMatches (.seq (.alt (.group 1 (plusL (.cls jsDot))) .eps)
        (.seq reWS (.seq (reStr (tok0 :: tokR)) (.seq reWS (reStr cbMarker))))) ((v0 :: vt') ++ (w2 ++ ((tok0 :: tokR) ++ (w3 ++ (cbMarker ++ (w4 ++ jp)))))) [] =
        reMatches (.seq (.group 1 (plusL (.cls jsDot))) (.seq reWS (.seq (reStr (tok0 :: tokR)) (.seq reWS (reStr cbMarker))))) ((v0 :: vt') ++ (w2 ++ ((tok0 :: tokR) ++ (w3 ++ (cbMarker ++ (w4 ++ jp)))))) [] ++
        reMatches (.seq reWS (.seq (reStr (tok0 :: tokR)) (.seq reWS (reStr cbMarker)))) ((v0 :: vt') ++ (w2 ++ ((tok0 :: tokR) ++ (w3 ++ (cbMarker ++ (w4 ++ jp)))))) [] := by
      show ((reMatches (.group 1 (plusL (.cls jsDot))) ((v0 :: vt') ++ (w2 ++ ((tok0 :: tokR) ++ (w3 ++ (cbMarker ++ (w4 ++ jp)))))) [] ++
        [(⟨(v0 :: vt') ++ (w2 ++ ((tok0 :: tokR) ++ (w3 ++ (cbMarker ++ (w4 ++ jp))))), []⟩ : MRes)]).flatMap _) = _
      rw [List.flatMap_append, List.flatMap_cons, List.flatMap_nil,
        List.append_nil]
      rfl
    rw [hsplit, List.head?_append, hlazy]
    rfl
  have hws1 : (reMatches (.seq reWS
      (.seq (.alt (.group 1 (plusL (.cls jsDot))) .eps) (.seq reWS (.seq (reStr (tok0 :: tokR)) (.seq reWS (reStr cbMarker))))))
      (w1 ++ ((v0 :: vt') ++ (w2 ++ ((tok0 :: tokR) ++ (w3 ++ (cbMarker ++ (w4 ++ jp))))))) []).head? = some ⟨w4 ++ jp, [(1, v0 :: vt')]⟩ := by
    rw [head_seq_ws hw1 hrest1 (ne_nil_of_head halt)]
    exact halt
  have hhead : (reMatches (extractRE (tok0 :: tokR))
      ('=' :: (w1 ++ ((v0 :: vt') ++ (w2 ++ ((tok0 :: tokR) ++ (w3 ++ (cbMarker ++ (w4 ++ jp)))))))) []).head? =
      some ⟨w4 ++ jp, [(1, v0 :: vt')]⟩ := by
    have hstep : reMatches (extractRE (tok0 :: tokR))
        ('=' :: (w1 ++ ((v0 :: vt') ++ (w2 ++ ((tok0 :: tokR) ++ (w3 ++ (cbMarker ++ (w4 ++ jp)))))))) [] =
        reMatches (.seq reWS
          (.seq (.alt (.group 1 (plusL (.cls jsDot))) .eps) (.seq reWS (.seq (reStr (tok0 :: tokR)) (.seq reWS (reStr cbMarker))))))
        (w1 ++ ((v0 :: vt') ++ (w2 ++ ((tok0 :: tokR) ++ (w3 ++ (cbMarker ++ (w4 ++ jp))))))) [] := seq_lit_step
    rw [hstep]
    exact hws1
  rw [hL]
  rw [@exec_skip_run (extractRE (tok0 :: tokR)) nm ('=' :: (w1 ++ ((v0 :: vt') ++ (w2 ++ ((tok0 :: tokR) ++ (w3 ++ (cbMarker ++ (w4 ++ jp))))))))
    (fun a ha t => seq_lit_fail (by
      intro h
      rw [List.head?_cons, Option.some.injEq] at h
      exact heqnm (h ▸ ha)))]
  rw [exec_commit hhead]

theorem extractVariableValue_family (tok0 : Char)
    (tokR nm w1 vtext w2 w3 w4 jp : List Char)
    (hw1 : w1.all jsWS = true) (hw2 : w2.all jsWS = true)
    (hw3 : w3.all jsWS = true)
    (hvt : vtext ≠ []) (htrim : jsTrim vtext = vtext)
    (htokws : jsWS tok0 = false) (htokvt : tok0 ∉ vtext)
    (heqnm : '=' ∉ nm)
    (hdotL : (famLine (tok0 :: tokR) nm w1 vtext w2 w3 w4 jp).all jsDot = true) :
    extractVariableValue
      (String.mk (famLine (tok0 :: tokR) nm w1 vtext w2 w3 w4 jp))
      (String.mk (tok0 :: tokR)) = .ok (some (String.mk vtext)) := by
  have h := extract_family tok0 tokR nm w1 vtext w2 w3 w4 jp hw1 hw2 hw3 hvt
    htrim htokws htokvt heqnm hdotL
  unfold extractVariableValue
  rw [show (String.mk (tok0 :: tokR)).data = tok0 :: tokR from rfl,
    show (String.mk (famLine (tok0 :: tokR) nm w1 vtext w2 w3 w4 jp)).data =
      famLine (tok0 :: tokR) nm w1 vtext w2 w3 w4 jp from rfl, h]
  show (Except.ok (some (String.mk (jsTrim vtext))) : Except Unit (Option String)) =
    .ok (some (String.mk vtext))
  rw [htrim]

theorem checkbox_exec_family (tok0 : Char) (tokR nm w1 vtext w2 w3 w4 : List Char)
    (seg0 : List Char) (segs : List (List Char))
    (hw1 : w1.all jsWS = true) (hw2 : w2.all jsWS = true)
    (hw3 : w3.all jsWS = true) (hw4 : w4.all jsWS = true)
    (htokws : jsWS tok0 = false) (htokvt : tok0 ∉ vtext)
    (htoknm : tok0 ∉ nm) (htokeq : tok0 ≠ '=')
    (hsegs : ∀ sg ∈ seg0 :: segs, sg ≠ [] ∧ sg.all nonPipeNL = true)
    (hseg0h : ∀ ch ∈ seg0.take 1, jsWS ch = false) :
    exec (checkboxRE (tok0 :: tokR))
      (famLine (tok0 :: tokR) nm w1 vtext w2 w3 w4 (joinPipe (seg0 :: segs))) =
      some [(1, (joinPipe (seg0 :: segs)))] := by
  have hs0ne : seg0 ≠ [] := (hsegs seg0 (List.mem_cons_self seg0 segs)).1
  have hjph : ∀ ch, ((joinPipe (seg0 :: segs)) : List Char).head? = some ch → jsWS ch = false :=
    joinPipe_head_not_ws hs0ne hseg0h
  have hgroup : (reMatches (.group 1 valuesRE) (joinPipe (seg0 :: segs)) []).head? =
      some ⟨[], [(1, (joinPipe (seg0 :: segs)))]⟩ := by
    show ((reMatches valuesRE (joinPipe (seg0 :: segs)) []).map _).head? = _
    rw [List.head?_map, valuesRE_head hsegs]
    simp [List.take_length]
  have h5 : (reMatches (.seq reWS (.group 1 valuesRE)) (w4 ++ (joinPipe (seg0 :: segs))) []).head? =
      some ⟨[], [(1, (joinPipe (seg0 :: segs)))]⟩ := by
    rw [head_seq_ws hw4 hjph (ne_nil_of_head hgroup)]
    exact hgroup
  have h4 : (reMatches (.seq (reStr cbMarker) (.seq reWS (.group 1 valuesRE)))
      (cbMarker ++ (w4 ++ (joinPipe (seg0 :: segs)))) []).head? = some ⟨[], [(1, (joinPipe (seg0 :: segs)))]⟩ := by
    rw [seq_reStr_step]
    exact h5
  have h3 : (reMatches (.seq reWS (.seq (reStr cbMarker)
      (.seq reWS (.group 1 valuesRE)))) (w3 ++ (cbMarker ++ (w4 ++ (joinPipe (seg0 :: segs)))))
      []).head? = some ⟨[], [(1, (joinPipe (seg0 :: segs)))]⟩ := by
    rw [head_seq_ws hw3 cbMarker_head_not_ws (ne_nil_of_head h4)]
    exact h4
  have h2 : (reMatches (checkboxRE (tok0 :: tokR)) ((tok0 :: tokR) ++ (w3 ++ (cbMarker ++ (w4 ++ (joinPipe (seg0 :: segs)))))) []).head? =
      some ⟨[], [(1, (joinPipe (seg0 :: segs)))]⟩ := by
    have hstep : reMatches (checkboxRE (tok0 :: tokR)) ((tok0 :: tokR) ++ (w3 ++ (cbMarker ++ (w4 ++ (joinPipe (seg0 :: segs)))))) [] =
        reMatches (.seq reWS (.seq (reStr cbMarker)
          (.seq reWS (.group 1 valuesRE))))
        (w3 ++ (cbMarker ++ (w4 ++ (joinPipe (seg0 :: segs))))) [] := seq_reStr_step
    rw [hstep]
    exact h3
  have hassoc : famLine (tok0 :: tokR) nm w1 vtext w2 w3 w4 (joinPipe (seg0 :: segs)) =
      (nm ++ '=' :: (w1 ++ (vtext ++ w2))) ++ ((tok0 :: tokR) ++ (w3 ++ (cbMarker ++ (w4 ++ (joinPipe (seg0 :: segs)))))) := by
    simp [famLine, List.append_assoc]
  rw [hassoc]
  rw [@exec_skip_run (checkboxRE (tok0 :: tokR))
    (nm ++ '=' :: (w1 ++ (vtext ++ w2))) ((tok0 :: tokR) ++ (w3 ++ (cbMarker ++ (w4 ++ (joinPipe (seg0 :: segs)))))) (fun a ha t => ?_)]
  · rw [exec_commit h2]
  · have hane : a ≠ tok0 := by
      rcases List.mem_append.mp ha with h1 | h2x
      · intro he
        subst he
        exact htoknm h1
      · rcases List.mem_cons.mp h2x with rfl | h3x
        · intro he
          exact htokeq he.symm
        · rcases List.mem_append.mp h3x with h4x | h5x
          · intro he
            have hws := List.all_eq_true.mp hw1 a h4x
            rw [he, htokws] at hws
            cases hws
          · rcases List.mem_append.mp h5x with h6x | h7x
            · intro he
              subst he
              exact htokvt h6x
            · intro he
              have hws := List.all_eq_true.mp hw2 a h7x
              rw [he, htokws] at hws
              cases hws
    exact seq_fail_left (reStr_head_fail (by
      intro h
      rw [List.head?_cons, Option.some.injEq] at h
      exact hane h))

theorem varRE_exec_family (tok0 : Char) (tokR nm w1 vtext w2 w3 w4 : List Char)
    (seg0 : List Char) (segs : List (List Char))
    (hw1 : w1.all jsWS = true) (hw2 : w2.all jsWS = true)
    (hw3 : w3.all jsWS = true) (hw4 : w4.all jsWS = true)
    (hvt : vtext ≠ []) (htrim : jsTrim vtext = vtext)
    (htokws : jsWS tok0 = false) (htokvt : tok0 ∉ vtext)
    (heqtail : '=' ∉ (w1 ++ (vtext ++ (w2 ++ ((tok0 :: tokR) ++ (w3 ++ (cbMarker ++ (w4 ++ (joinPipe (seg0 :: segs))))))))))
    (hsegs : ∀ sg ∈ seg0 :: segs, sg ≠ [] ∧ sg.all nonPipeNL = true)
    (hseg0h : ∀ ch ∈ seg0.take 1, jsWS ch = false)
    (hdotL : (famLine (tok0 :: tokR) nm w1 vtext w2 w3 w4 (joinPipe (seg0 :: segs))).all jsDot
      = true) :
    exec (varRE (tok0 :: tokR))
      (famLine (tok0 :: tokR) nm w1 vtext w2 w3 w4 (joinPipe (seg0 :: segs))) =
      some [(4, (joinPipe (seg0 :: segs))), (3, ((tok0 :: tokR) ++ (w3 ++ (cbMarker ++ w4)))), (2, vtext), (1, nm)] := by
  obtain ⟨v0, vt', rfl⟩ : ∃ v0 vt', vtext = v0 :: vt' := by
    cases vtext with
    | nil => exact absurd rfl hvt
    | cons a t => exact ⟨a, t, rfl⟩
  have hs0ne : seg0 ≠ [] := (hsegs seg0 (List.mem_cons_self seg0 segs)).1
  have hjph : ∀ ch, ((joinPipe (seg0 :: segs)) : List Char).head? = some ch → jsWS ch = false :=
    joinPipe_head_not_ws hs0ne hseg0h
  have hvh : ∀ ch, ((v0 :: vt') : List Char).head? = some ch → jsWS ch = false :=
    fun ch h => jsTrim_head_not_ws ch (by rw [htrim]; exact h)
  have hvl : ∀ ch, ((v0 :: vt') : List Char).getLast? = some ch →
      jsWS ch = false :=
    fun ch h => jsTrim_getLast_not_ws ch (by rw [htrim]; exact h)
  have hX3 : ∀ cc : Caps, (reMatches (.seq (reStr (tok0 :: tokR)) (.seq reWS (.seq (reStr cbMarker) reWS))) ((tok0 :: tokR) ++ (w3 ++ (cbMarker ++ (w4 ++ (joinPipe (seg0 :: segs)))))) cc).head? = some ⟨(joinPipe (seg0 :: segs)), cc⟩ := by
    intro cc
    have hi4 : (reMatches reWS (w4 ++ (joinPipe (seg0 :: segs))) cc).head? = some ⟨(joinPipe (seg0 :: segs)), cc⟩ :=
      reWS_head hw4 hjph
    have hi3 : (reMatches (.seq (reStr cbMarker) reWS)
        (cbMarker ++ (w4 ++ (joinPipe (seg0 :: segs)))) cc).head? = some ⟨(joinPipe (seg0 :: segs)), cc⟩ := by
      rw [seq_reStr_step]
      exact hi4
    have hi2 : (reMatches (.seq reWS (.seq (reStr cbMarker) reWS))
        (w3 ++ (cbMarker ++ (w4 ++ (joinPipe (seg0 :: segs))))) cc).head? = some ⟨(joinPipe (seg0 :: segs)), cc⟩ := by
      rw [head_seq_ws hw3 cbMarker_head_not_ws (ne_nil_of_head hi3)]
      exact hi3
    show (reMatches (.seq (reStr (tok0 :: tokR))
      (.seq reWS (.seq (reStr cbMarker) reWS))) ((tok0 :: tokR) ++ (w3 ++ (cbMarker ++ (w4 ++ (joinPipe (seg0 :: segs)))))) cc).head? = _
    rw [seq_reStr_step]
    exact hi2
  have hT_assoc : (((tok0 :: tokR) ++ (w3 ++ (cbMarker ++ (w4 ++ (joinPipe (seg0 :: segs)))))) : List Char) = ((tok0 :: tokR) ++ (w3 ++ (cbMarker ++ w4))) ++ (joinPipe (seg0 :: segs)) := by
    simp [List.append_assoc]
  have hg3 : ∀ cc : Caps, (reMatches (.group 3 (.seq (reStr (tok0 :: tokR)) (.seq reWS (.seq (reStr cbMarker) reWS)))) ((tok0 :: tokR) ++ (w3 ++ (cbMarker ++ (w4 ++ (joinPipe (seg0 :: segs)))))) cc).head? =
      some ⟨(joinPipe (seg0 :: segs)), (3, ((tok0 :: tokR) ++ (w3 ++ (cbMarker ++ w4)))) :: cc⟩ := by
    intro cc
    have htake : (((tok0 :: tokR) ++ (w3 ++ (cbMarker ++ (w4 ++ (joinPipe (seg0 :: segs)))))) : List Char).take
        ((((tok0 :: tokR) ++ (w3 ++ (cbMarker ++ (w4 ++ (joinPipe (seg0 :: segs)))))) : List Char).length - ((joinPipe (seg0 :: segs)) : List Char).length) = ((tok0 :: tokR) ++ (w3 ++ (cbMarker ++ w4))) :=
      take_sub_of_append hT_assoc
    show ((reMatches (.seq (reStr (tok0 :: tokR)) (.seq reWS (.seq (reStr cbMarker) reWS))) ((tok0 :: tokR) ++ (w3 ++ (cbMarker ++ (w4 ++ (joinPipe (seg0 :: segs)))))) cc).map _).head? = _
    rw [List.head?_map, hX3 cc]
    show some (⟨(joinPipe (seg0 :: segs)), (3, (((tok0 :: tokR) ++ (w3 ++ (cbMarker ++ (w4 ++ (joinPipe (seg0 :: segs)))))) : List Char).take
      ((((tok0 :: tokR) ++ (w3 ++ (cbMarker ++ (w4 ++ (joinPipe (seg0 :: segs)))))) : List Char).length - ((joinPipe (seg0 :: segs)) : List Char).length)) :: cc⟩ : MRes) = _
    rw [htake]
  have hg4 : (reMatches (.group 4 valuesRE) (joinPipe (seg0 :: segs)) [(3, ((tok0 :: tokR) ++ (w3 ++ (cbMarker ++ w4)))), (2, v0 :: vt'), (1, nm)]).head? =
      some ⟨[], [(4, (joinPipe (seg0 :: segs))), (3, ((tok0 :: tokR) ++ (w3 ++ (cbMarker ++ w4)))), (2, v0 :: vt'), (1, nm)]⟩ := by
    show ((reMatches valuesRE (joinPipe (seg0 :: segs)) [(3, ((tok0 :: tokR) ++ (w3 ++ (cbMarker ++ w4)))), (2, v0 :: vt'), (1, nm)]).map _).head? = _
    rw [List.head?_map, valuesRE_head hsegs]
    show some (⟨[], (4, ((joinPipe (seg0 :: segs)) : List Char).take
      (((joinPipe (seg0 :: segs)) : List Char).length - ([] : List Char).length)) :: [(3, ((tok0 :: tokR) ++ (w3 ++ (cbMarker ++ w4)))), (2, v0 :: vt'), (1, nm)]⟩ : MRes) = _
    rw [show (((joinPipe (seg0 :: segs)) : List Char).take
      (((joinPipe (seg0 :: segs)) : List Char).length - ([] : List Char).length)) = (joinPipe (seg0 :: segs)) from by simp]
  have hKV4 : (reMatches (.seq (.group 3 (.seq (reStr (tok0 :: tokR)) (.seq reWS (.seq (reStr cbMarker) reWS)))) (.group 4 valuesRE)) ((tok0 :: tokR) ++ (w3 ++ (cbMarker ++ (w4 ++ (joinPipe (seg0 :: segs)))))) [(2, v0 :: vt'), (1, nm)]).head? = some ⟨[], [(4, (joinPipe (seg0 :: segs))), (3, ((tok0 :: tokR) ++ (w3 ++ (cbMarker ++ w4)))), (2, v0 :: vt'), (1, nm)]⟩ := by
    rw [head_seq (hg3 [(2, v0 :: vt'), (1, nm)]) (ne_nil_of_head hg4)]
    exact hg4
  have hK2v : (reMatches (.seq reWS (.seq (.group 3 (.seq (reStr (tok0 :: tokR)) (.seq reWS (.seq (reStr cbMarker) reWS)))) (.group 4 valuesRE))) (w2 ++ ((tok0 :: tokR) ++ (w3 ++ (cbMarker ++ (w4 ++ (joinPipe (seg0 :: segs))))))) [(2, v0 :: vt'), (1, nm)]).head? = some ⟨[], [(4, (joinPipe (seg0 :: segs))), (3, ((tok0 :: tokR) ++ (w3 ++ (cbMarker ++ w4)))), (2, v0 :: vt'), (1, nm)]⟩ := by
    rw [head_seq_ws hw2 (tok_head_not_ws htokws) (ne_nil_of_head hKV4)]
    exact hKV4
  have hfam : famLine (tok0 :: tokR) nm w1 (v0 :: vt') w2 w3 w4 (joinPipe (seg0 :: segs)) =
      nm ++ ('=' :: (w1 ++ ((v0 :: vt') ++ (w2 ++ ((tok0 :: tokR) ++ (w3 ++ (cbMarker ++ (w4 ++ (joinPipe (seg0 :: segs)))))))))) := rfl
  have hdotvR : (((v0 :: vt') ++ (w2 ++ ((tok0 :: tokR) ++ (w3 ++ (cbMarker ++ (w4 ++ (joinPipe (seg0 :: segs)))))))) : List Char).all jsDot = true := by
    apply List.all_eq_true.mpr
    intro x hx
    exact List.all_eq_true.mp hdotL x (by
      rw [hfam]
      exact List.mem_append_right nm (List.mem_cons_of_mem '='
        (List.mem_append_right w1 hx)))
  have hlz : (reMatches (.seq (.group 2 (plusL (.cls jsDot))) (.seq reWS (.seq (.group 3 (.seq (reStr (tok0 :: tokR)) (.seq reWS (.seq (reStr cbMarker) reWS)))) (.group 4 valuesRE)))) ((v0 :: vt') ++ (w2 ++ ((tok0 :: tokR) ++ (w3 ++ (cbMarker ++ (w4 ++ (joinPipe (seg0 :: segs)))))))) [(1, nm)]).head? = some ⟨[], [(4, (joinPipe (seg0 :: segs))), (3, ((tok0 :: tokR) ++ (w3 ++ (cbMarker ++ w4)))), (2, v0 :: vt'), (1, nm)]⟩ := by
    rw [head_group_lazy_dot hdotvR
      (fun u hu hsuf cc => K2var_fail htokws
        (vtext_suffix_head_ne hvl htokvt u hu hsuf))
      (ne_nil_of_head hK2v)]
    exact hK2v
  have hrest1 : ∀ ch, (((v0 :: vt') ++ (w2 ++ ((tok0 :: tokR) ++ (w3 ++ (cbMarker ++ (w4 ++ (joinPipe (seg0 :: segs)))))))) : List Char).head? = some ch →
      jsWS ch = false := by
    intro ch hch
    simp only [List.cons_append, List.head?_cons, Option.some.injEq] at hch
    rw [← hch]
    exact hvh v0 rfl
  have hwsv : (reMatches (.seq reWS (.seq (.group 2 (plusL (.cls jsDot))) (.seq reWS (.seq (.group 3 (.seq (reStr (tok0 :: tokR)) (.seq reWS (.seq (reStr cbMarker) reWS)))) (.group 4 valuesRE))))) (w1 ++ ((v0 :: vt') ++ (w2 ++ ((tok0 :: tokR) ++ (w3 ++ (cbMarker ++ (w4 ++ (joinPipe (seg0 :: segs))))))))) [(1, nm)]).head? =
      some ⟨[], [(4, (joinPipe (seg0 :: segs))), (3, ((tok0 :: tokR) ++ (w3 ++ (cbMarker ++ w4)))), (2, v0 :: vt'), (1, nm)]⟩ := by
    rw [head_seq_ws hw1 hrest1 (ne_nil_of_head hlz)]
    exact hlz
  have hKV : (reMatches (.seq (.lit '=') (.seq reWS (.seq (.group 2 (plusL (.cls jsDot))) (.seq reWS (.seq (.group 3 (.seq (reStr (tok0 :: tokR)) (.seq reWS (.seq (reStr cbMarker) reWS)))) (.group 4 valuesRE)))))) ('=' :: (w1 ++ ((v0 :: vt') ++ (w2 ++ ((tok0 :: tokR) ++ (w3 ++ (cbMarker ++ (w4 ++ (joinPipe (seg0 :: segs)))))))))) [(1, nm)]).head? =
      some ⟨[], [(4, (joinPipe (seg0 :: segs))), (3, ((tok0 :: tokR) ++ (w3 ++ (cbMarker ++ w4)))), (2, v0 :: vt'), (1, nm)]⟩ := by
    rw [seq_lit_step]
    exact hwsv
  have hfailKV : ∀ u, u <:+ (w1 ++ ((v0 :: vt') ++ (w2 ++ ((tok0 :: tokR) ++ (w3 ++ (cbMarker ++ (w4 ++ (joinPipe (seg0 :: segs))))))))) → ∀ cc : Caps,
      reMatches (.seq (.lit '=') (.seq reWS (.seq (.group 2 (plusL (.cls jsDot))) (.seq reWS (.seq (.group 3 (.seq (reStr (tok0 :: tokR)) (.seq reWS (.seq (reStr cbMarker) reWS)))) (.group 4 valuesRE)))))) u cc = [] := by
    intro u hsuf cc
    cases u with
    | nil => exact seq_lit_fail (by simp)
    | cons a t =>
      refine seq_lit_fail ?_
      intro h
      rw [List.head?_cons, Option.some.injEq] at h
      exact heqtail (h ▸ hsuf.subset (List.mem_cons_self a t))
  have hvarhead : (reMatches (varRE (tok0 :: tokR)) (nm ++ ('=' :: (w1 ++ ((v0 :: vt') ++ (w2 ++ ((tok0 :: tokR) ++ (w3 ++ (cbMarker ++ (w4 ++ (joinPipe (seg0 :: segs))))))))))) []).head? =
      some ⟨[], [(4, (joinPipe (seg0 :: segs))), (3, ((tok0 :: tokR) ++ (w3 ++ (cbMarker ++ w4)))), (2, v0 :: vt'), (1, nm)]⟩ := by
    have hstep : (reMatches (varRE (tok0 :: tokR)) (nm ++ ('=' :: (w1 ++ ((v0 :: vt') ++ (w2 ++ ((tok0 :: tokR) ++ (w3 ++ (cbMarker ++ (w4 ++ (joinPipe (seg0 :: segs))))))))))) []).head? =
        (reMatches (.seq (.group 1 (.starG (.cls jsDot)))
          (.seq (.lit '=') (.seq reWS (.seq (.group 2 (plusL (.cls jsDot))) (.seq reWS (.seq (.group 3 (.seq (reStr (tok0 :: tokR)) (.seq reWS (.seq (reStr cbMarker) reWS)))) (.group 4 valuesRE))))))) (nm ++ ('=' :: (w1 ++ ((v0 :: vt') ++ (w2 ++ ((tok0 :: tokR) ++ (w3 ++ (cbMarker ++ (w4 ++ (joinPipe (seg0 :: segs))))))))))) []).head? := rfl
    have hdotL' : ((nm ++ ('=' :: (w1 ++ ((v0 :: vt') ++ (w2 ++ ((tok0 :: tokR) ++ (w3 ++ (cbMarker ++ (w4 ++ (joinPipe (seg0 :: segs))))))))))) : List Char).all jsDot = true := hdotL
    rw [hstep, head_group_star_dot hdotL' hfailKV (by simp)
      (ne_nil_of_head hKV)]
    exact hKV
  rw [hfam, exec_commit hvarhead]

theorem toggleParse_family (tok0 : Char) (tokR nm w1 vtext w2 w3 w4 : List Char)
    (seg0 : List Char) (segs : List (List Char))
    (hw1 : w1.all jsWS = true) (hw2 : w2.all jsWS = true)
    (hw3 : w3.all jsWS = true) (hw4 : w4.all jsWS = true)
    (hvt : vtext ≠ []) (htrim : jsTrim vtext = vtext)
    (htokws : jsWS tok0 = false) (htokvt : tok0 ∉ vtext)
    (htoknm : tok0 ∉ nm) (htokeq : tok0 ≠ '=')
    (heqnm : '=' ∉ nm)
    (heqtail : '=' ∉ (w1 ++ (vtext ++ (w2 ++ ((tok0 :: tokR) ++ (w3 ++ (cbMarker ++ (w4 ++ (joinPipe (seg0 :: segs))))))))))
    (hsegs : ∀ sg ∈ seg0 :: segs, sg ≠ [] ∧ sg.all nonPipeNL = true)
    (hseg0h : ∀ ch ∈ seg0.take 1, jsWS ch = false)
    (hdotL : (famLine (tok0 :: tokR) nm w1 vtext w2 w3 w4 (joinPipe (seg0 :: segs))).all jsDot = true) :
    toggleParse (String.mk (tok0 :: tokR)) (String.mk (famLine (tok0 :: tokR) nm w1 vtext w2 w3 w4 (joinPipe (seg0 :: segs)))) =
      some (⟨String.mk nm, String.mk vtext, String.mk ((tok0 :: tokR) ++ (w3 ++ (cbMarker ++ w4))), String.mk (joinPipe (seg0 :: segs)), ((extractCheckboxValuesL (joinPipe (seg0 :: segs))).map String.mk), nextValueCalc ((extractCheckboxValuesL (joinPipe (seg0 :: segs))).map String.mk) (String.mk vtext)⟩ : ToggleParts) := by
  have hcb := checkbox_exec_family tok0 tokR nm w1 vtext w2 w3 w4 seg0 segs
    hw1 hw2 hw3 hw4 htokws htokvt htoknm htokeq hsegs hseg0h
  have hvar := varRE_exec_family tok0 tokR nm w1 vtext w2 w3 w4 seg0 segs
    hw1 hw2 hw3 hw4 hvt htrim htokws htokvt heqtail hsegs hseg0h hdotL
  unfold toggleParse
  rw [show (String.mk (tok0 :: tokR)).data = tok0 :: tokR from rfl,
    show (String.mk (famLine (tok0 :: tokR) nm w1 vtext w2 w3 w4 (joinPipe (seg0 :: segs)))).data = (famLine (tok0 :: tokR) nm w1 vtext w2 w3 w4 (joinPipe (seg0 :: segs))) from rfl, hcb, hvar]
  show some (⟨String.mk nm, String.mk (jsTrim vtext), String.mk ((tok0 :: tokR) ++ (w3 ++ (cbMarker ++ w4))),
    String.mk (joinPipe (seg0 :: segs)), ((extractCheckboxValuesL (joinPipe (seg0 :: segs))).map String.mk),
    nextValueCalc ((extractCheckboxValuesL (joinPipe (seg0 :: segs))).map String.mk) (String.mk (jsTrim vtext))⟩ : ToggleParts) = _
  rw [htrim]

/-- C8 (corrected): on the structured single-`=` line family, the value
extractor and the toggle engine agree on which `=` is authoritative: the
toggle's current value (group 2 of its rewrite regex, trimmed) coincides
with the value `extractVariableValue` returns for the same line.  (On lines
with several `=` the two functions disagree — the extractor's regex takes the
first `=`, the toggle's greedy `(.*)` takes the last feasible one — which the
claim's counterexample exhibits; so agreement is proved on the family where
exactly one `=` precedes the marker.) -/
theorem c8_agreement (tok0 : Char) (tokR nm w1 vtext w2 w3 w4 : List Char)
    (seg0 : List Char) (segs : List (List Char))
    (hw1 : w1.all jsWS = true) (hw2 : w2.all jsWS = true)
    (hw3 : w3.all jsWS = true) (hw4 : w4.all jsWS = true)
    (hvt : vtext ≠ []) (htrim : jsTrim vtext = vtext)
    (htokws : jsWS tok0 = false) (htokvt : tok0 ∉ vtext)
    (htoknm : tok0 ∉ nm) (htokeq : tok0 ≠ '=')
    (heqnm : '=' ∉ nm)
    (heqtail : '=' ∉ (w1 ++ (vtext ++ (w2 ++ ((tok0 :: tokR) ++ (w3 ++ (cbMarker ++ (w4 ++ (joinPipe (seg0 :: segs))))))))))
    (hsegs : ∀ sg ∈ seg0 :: segs, sg ≠ [] ∧ sg.all nonPipeNL = true)
    (hseg0h : ∀ ch ∈ seg0.take 1, jsWS ch = false)
    (hdotL : (famLine (tok0 :: tokR) nm w1 vtext w2 w3 w4 (joinPipe (seg0 :: segs))).all jsDot = true) :
    ∃ p : ToggleParts,
      toggleParse (String.mk (tok0 :: tokR)) (String.mk (famLine (tok0 :: tokR) nm w1 vtext w2 w3 w4 (joinPipe (seg0 :: segs)))) = some p ∧
      p.current = String.mk vtext ∧
      extractVariableValue (String.mk (famLine (tok0 :: tokR) nm w1 vtext w2 w3 w4 (joinPipe (seg0 :: segs)))) (String.mk (tok0 :: tokR)) =
        .ok (some p.current) := by
  refine ⟨(⟨String.mk nm, String.mk vtext, String.mk ((tok0 :: tokR) ++ (w3 ++ (cbMarker ++ w4))), String.mk (joinPipe (seg0 :: segs)), ((extractCheckboxValuesL (joinPipe (seg0 :: segs))).map String.mk), nextValueCalc ((extractCheckboxValuesL (joinPipe (seg0 :: segs))).map String.mk) (String.mk vtext)⟩ : ToggleParts),
    toggleParse_family tok0 tokR nm w1 vtext w2 w3 w4 seg0 segs hw1 hw2 hw3 hw4
      hvt htrim htokws htokvt htoknm htokeq heqnm heqtail hsegs hseg0h hdotL,
    rfl, ?_⟩
  exact extractVariableValue_family tok0 tokR nm w1 vtext w2 w3 w4 (joinPipe (seg0 :: segs))
    hw1 hw2 hw3 hvt htrim htokws htokvt heqnm hdotL

theorem c8_witness :
    ∃ p : ToggleParts,
      toggleParse (String.mk ['#'])
        (String.mk (famLine ['#'] ['x', ' '] [' '] ['a'] [' '] [' '] [' ']
          (joinPipe [['a'], ['b']]))) = some p ∧
      p.current = String.mk ['a'] ∧
      extractVariableValue
        (String.mk (famLine ['#'] ['x', ' '] [' '] ['a'] [' '] [' '] [' ']
          (joinPipe [['a'], ['b']])))
        (String.mk ['#']) = .ok (some p.current) :=
  c8_agreement '#' [] ['x', ' '] [' '] ['a'] [' '] [' '] [' '] ['a'] [['b']]
    (by decide) (by decide) (by decide) (by decide) (by decide) (by decide)
    (by decide) (by decide) (by decide) (by decide) (by decide) (by decide)
    (by decide) (by decide) (by decide)

theorem no_pipe_of_nonPipeNL {sg : List Char} (h : sg.all nonPipeNL = true) :
    '|' ∉ sg := by
  intro hm
  have hx := List.all_eq_true.mp h '|' hm
  rw [show nonPipeNL '|' = false from by decide] at hx
  cases hx

theorem mem_famLine_of_mem_jp {x : Char}
    (tok nm w1 vtext w2 w3 w4 jp : List Char) (hx : x ∈ jp) :
    x ∈ famLine tok nm w1 vtext w2 w3 w4 jp :=
  List.mem_append_right nm (List.mem_cons_of_mem '='
    (List.mem_append_right w1 (List.mem_append_right vtext
      (List.mem_append_right w2 (List.mem_append_right tok
        (List.mem_append_right w3 (List.mem_append_right cbMarker
          (List.mem_append_right w4 hx))))))))

theorem famLine_all_of (tok nm w1 vtext w2 w3 w4 jp w1x vtx w2x : List Char)
    (f : Char → Bool)
    (hall : (famLine tok nm w1 vtext w2 w3 w4 jp).all f = true)
    (hw1x : w1x.all f = true) (hvtx : vtx.all f = true)
    (hw2x : w2x.all f = true) :
    (famLine tok nm w1x vtx w2x w3 w4 jp).all f = true := by
  apply List.all_eq_true.mpr
  intro x hx
  rw [show famLine tok nm w1x vtx w2x w3 w4 jp =
    nm ++ '=' :: (w1x ++ (vtx ++ (w2x ++
      (tok ++ (w3 ++ (cbMarker ++ (w4 ++ jp))))))) from rfl] at hx
  rcases List.mem_append.mp hx with h1 | h2
  · exact List.all_eq_true.mp hall x (List.mem_append_left _ h1)
  · rcases List.mem_cons.mp h2 with rfl | h3
    · exact List.all_eq_true.mp hall '='
        (List.mem_append_right _ (List.mem_cons_self _ _))
    · rcases List.mem_append.mp h3 with h4 | h5
      · exact List.all_eq_true.mp hw1x x h4
      · rcases List.mem_append.mp h5 with h6 | h7
        · exact List.all_eq_true.mp hvtx x h6
        · rcases List.mem_append.mp h7 with h8 | h9
          · exact List.all_eq_true.mp hw2x x h8
          · exact List.all_eq_true.mp hall x
              (List.mem_append_right _ (List.mem_cons_of_mem _
                (List.mem_append_right _ (List.mem_append_right _
                  (List.mem_append_right _ h9)))))

/-- C3 (corrected): on the structured single-`=` line family (whose segments
are nonempty, pipe- and newline-free, not all-whitespace and free of the
comment token), toggling round-trips: `toggleCheckboxAtLine` rewrites the
line to the rendered template, re-running the annotation matcher on the
rewritten line recovers the same raw value list (hence the same values), and
re-running the value extractor returns exactly the computed next value.  (On
arbitrary lines the round-trip fails — the claim's counterexample exhibits a
line whose rewrite drops text after the value list — so the property is
amended to this family.) -/
theorem c3_roundtrip (tok0 : Char) (tokR nm w1 vtext w2 w3 w4 : List Char)
    (seg0 : List Char) (segs : List (List Char))
    (hw1 : w1.all jsWS = true) (hw2 : w2.all jsWS = true)
    (hw3 : w3.all jsWS = true) (hw4 : w4.all jsWS = true)
    (hvt : vtext ≠ []) (htrim : jsTrim vtext = vtext)
    (htokws : jsWS tok0 = false) (htokvt : tok0 ∉ vtext)
    (htoknm : tok0 ∉ nm) (htokeq : tok0 ≠ '=')
    (heqnm : '=' ∉ nm)
    (heqtail : '=' ∉ (w1 ++ (vtext ++ (w2 ++ ((tok0 :: tokR) ++ (w3 ++ (cbMarker ++ (w4 ++ (joinPipe (seg0 :: segs))))))))))
    (hsegs : ∀ sg ∈ seg0 :: segs, sg ≠ [] ∧ sg.all nonPipeNL = true)
    (hseg0h : ∀ ch ∈ seg0.take 1, jsWS ch = false)
    (hdotL : (famLine (tok0 :: tokR) nm w1 vtext w2 w3 w4 (joinPipe (seg0 :: segs))).all jsDot = true)
    (hsegtrim : ∀ sg ∈ seg0 :: segs, jsTrim sg ≠ [])
    (htokseg : ∀ sg ∈ seg0 :: segs, tok0 ∉ sg) :
    ∃ (p : ToggleParts) (caps : Caps),
      toggleParse (String.mk (tok0 :: tokR)) (String.mk (famLine (tok0 :: tokR) nm w1 vtext w2 w3 w4 (joinPipe (seg0 :: segs)))) = some p ∧
      toggleCheckboxAtLine (String.mk (tok0 :: tokR)) (String.mk (famLine (tok0 :: tokR) nm w1 vtext w2 w3 w4 (joinPipe (seg0 :: segs)))) =
        some (renderToggle p) ∧
      p.newValue ∈ p.values ∧
      extractVariableValue (renderToggle p) (String.mk (tok0 :: tokR)) =
        .ok (some p.newValue) ∧
      exec (checkboxRE (tok0 :: tokR)) (renderToggle p).data = some caps ∧
      capLookup caps 1 = some p.valuesStr.data ∧
      (capLookup caps 1).map
        (fun g => (extractCheckboxValuesL g).map String.mk) = some p.values := by
  have hparse := toggleParse_family tok0 tokR nm w1 vtext w2 w3 w4 seg0 segs
    hw1 hw2 hw3 hw4 hvt htrim htokws htokvt htoknm htokeq heqnm heqtail
    hsegs hseg0h hdotL
  have hvals_ne : ((extractCheckboxValuesL (joinPipe (seg0 :: segs))).map String.mk) ≠ [] := by
    intro hc
    apply splitPipe_ne_nil (joinPipe (seg0 :: segs))
    simpa [extractCheckboxValuesL] using hc
  have hnew_mem0 : (nextValueCalc ((extractCheckboxValuesL (joinPipe (seg0 :: segs))).map String.mk) (String.mk vtext)) ∈ ((extractCheckboxValuesL (joinPipe (seg0 :: segs))).map String.mk) := nextValueCalc_mem hvals_ne _
  have hsplitjp : splitPipe (joinPipe (seg0 :: segs)) = seg0 :: segs :=
    splitPipe_joinPipe seg0 segs
      (fun sg hsg => no_pipe_of_nonPipeNL (hsegs sg hsg).2)
  have hvals_eq : ((extractCheckboxValuesL (joinPipe (seg0 :: segs))).map String.mk) = ((seg0 :: segs).map jsTrim).map String.mk := by
    rw [show extractCheckboxValuesL (joinPipe (seg0 :: segs)) =
      (splitPipe (joinPipe (seg0 :: segs))).map jsTrim from rfl, hsplitjp]
  have hnew_mem1 := hnew_mem0
  rw [hvals_eq] at hnew_mem1
  obtain ⟨y, hy, hyeq⟩ := List.mem_map.mp hnew_mem1
  obtain ⟨sg, hsg, rfl⟩ := List.mem_map.mp hy
  have hNV : String.mk (jsTrim sg) = (nextValueCalc ((extractCheckboxValuesL (joinPipe (seg0 :: segs))).map String.mk) (String.mk vtext)) := by
    rw [hvals_eq]
    exact hyeq
  have hvt2 : jsTrim sg ≠ [] := hsegtrim sg hsg
  have htrim2 : jsTrim (jsTrim sg) = jsTrim sg := jsTrim_idem sg
  have htokvt2 : tok0 ∉ jsTrim sg := fun hm => htokseg sg hsg (jsTrim_mem tok0 hm)
  have hvtx : (jsTrim sg).all jsDot = true := by
    apply List.all_eq_true.mpr
    intro x hx
    exact List.all_eq_true.mp hdotL x
      (mem_famLine_of_mem_jp _ _ _ _ _ _ _ _
        (mem_joinPipe (seg0 :: segs) hsg (jsTrim_mem x hx)))
  have hdotL2 : (famLine (tok0 :: tokR) nm [' '] (jsTrim sg) [' ']
      w3 w4 (joinPipe (seg0 :: segs))).all jsDot = true :=
    famLine_all_of (tok0 :: tokR) nm w1 vtext w2 w3 w4 (joinPipe (seg0 :: segs))
      [' '] (jsTrim sg) [' '] jsDot hdotL (by decide) hvtx (by decide)
  have hrd : renderToggle (⟨String.mk nm, String.mk vtext, String.mk ((tok0 :: tokR) ++ (w3 ++ (cbMarker ++ w4))), String.mk (joinPipe (seg0 :: segs)), ((extractCheckboxValuesL (joinPipe (seg0 :: segs))).map String.mk), (nextValueCalc ((extractCheckboxValuesL (joinPipe (seg0 :: segs))).map String.mk) (String.mk vtext))⟩ : ToggleParts) =
      String.mk (famLine (tok0 :: tokR) nm [' '] (jsTrim sg) [' ']
        w3 w4 (joinPipe (seg0 :: segs))) := by
    rw [show renderToggle (⟨String.mk nm, String.mk vtext, String.mk ((tok0 :: tokR) ++ (w3 ++ (cbMarker ++ w4))), String.mk (joinPipe (seg0 :: segs)), ((extractCheckboxValuesL (joinPipe (seg0 :: segs))).map String.mk), (nextValueCalc ((extractCheckboxValuesL (joinPipe (seg0 :: segs))).map String.mk) (String.mk vtext))⟩ : ToggleParts) =
      String.mk nm ++ "= " ++ (nextValueCalc ((extractCheckboxValuesL (joinPipe (seg0 :: segs))).map String.mk) (String.mk vtext)) ++ " " ++ String.mk ((tok0 :: tokR) ++ (w3 ++ (cbMarker ++ w4))) ++ String.mk (joinPipe (seg0 :: segs))
      from rfl, ← hNV]
    show String.mk (((((nm ++ ['=', ' ']) ++ jsTrim sg) ++ [' ']) ++ ((tok0 :: tokR) ++ (w3 ++ (cbMarker ++ w4))))
      ++ (joinPipe (seg0 :: segs))) = _
    exact congrArg String.mk (by simp [famLine, List.append_assoc])
  refine ⟨(⟨String.mk nm, String.mk vtext, String.mk ((tok0 :: tokR) ++ (w3 ++ (cbMarker ++ w4))), String.mk (joinPipe (seg0 :: segs)), ((extractCheckboxValuesL (joinPipe (seg0 :: segs))).map String.mk), (nextValueCalc ((extractCheckboxValuesL (joinPipe (seg0 :: segs))).map String.mk) (String.mk vtext))⟩ : ToggleParts), [(1, (joinPipe (seg0 :: segs)))], hparse, ?_, ?_, ?_, ?_, ?_, ?_⟩
  · rw [show toggleCheckboxAtLine (String.mk (tok0 :: tokR))
      (String.mk (famLine (tok0 :: tokR) nm w1 vtext w2 w3 w4 (joinPipe (seg0 :: segs)))) =
      (toggleParse (String.mk (tok0 :: tokR)) (String.mk (famLine (tok0 :: tokR) nm w1 vtext w2 w3 w4 (joinPipe (seg0 :: segs))))).map renderToggle
      from rfl, hparse]
    rfl
  · exact hnew_mem0
  · show extractVariableValue (renderToggle (⟨String.mk nm, String.mk vtext, String.mk ((tok0 :: tokR) ++ (w3 ++ (cbMarker ++ w4))), String.mk (joinPipe (seg0 :: segs)), ((extractCheckboxValuesL (joinPipe (seg0 :: segs))).map String.mk), (nextValueCalc ((extractCheckboxValuesL (joinPipe (seg0 :: segs))).map String.mk) (String.mk vtext))⟩ : ToggleParts))
      (String.mk (tok0 :: tokR)) = .ok (some (nextValueCalc ((extractCheckboxValuesL (joinPipe (seg0 :: segs))).map String.mk) (String.mk vtext)))
    rw [hrd, ← hNV]
    exact extractVariableValue_family tok0 tokR nm [' '] (jsTrim sg) [' ']
      w3 w4 (joinPipe (seg0 :: segs)) (by decide) (by decide) hw3 hvt2 htrim2 htokws htokvt2
      heqnm hdotL2
  · show exec (checkboxRE (tok0 :: tokR)) (renderToggle (⟨String.mk nm, String.mk vtext, String.mk ((tok0 :: tokR) ++ (w3 ++ (cbMarker ++ w4))), String.mk (joinPipe (seg0 :: segs)), ((extractCheckboxValuesL (joinPipe (seg0 :: segs))).map String.mk), (nextValueCalc ((extractCheckboxValuesL (joinPipe (seg0 :: segs))).map String.mk) (String.mk vtext))⟩ : ToggleParts)).data =
      some [(1, (joinPipe (seg0 :: segs)))]
    rw [hrd]
    exact checkbox_exec_family tok0 tokR nm [' '] (jsTrim sg) [' '] w3 w4
      seg0 segs (by decide) (by decide) hw3 hw4 htokws htokvt2 htoknm htokeq
      hsegs hseg0h
  · rfl
  · rfl

theorem c3_witness :
    ∃ (p : ToggleParts) (caps : Caps),
      toggleParse (String.mk ['#'])
        (String.mk (famLine ['#'] ['x', ' '] [' '] ['a'] [' '] [' '] [' ']
          (joinPipe [['a'], ['b']]))) = some p ∧
      toggleCheckboxAtLine (String.mk ['#'])
        (String.mk (famLine ['#'] ['x', ' '] [' '] ['a'] [' '] [' '] [' ']
          (joinPipe [['a'], ['b']]))) = some (renderToggle p) ∧
      p.newValue ∈ p.values ∧
      extractVariableValue (renderToggle p) (String.mk ['#']) =
        .ok (some p.newValue) ∧
      exec (checkboxRE ['#']) (renderToggle p).data = some caps ∧
      capLookup caps 1 = some p.valuesStr.data ∧
      (capLookup caps 1).map
        (fun g => (extractCheckboxValuesL g).map String.mk) = some p.values :=
  c3_roundtrip '#' [] ['x', ' '] [' '] ['a'] [' '] [' '] [' '] ['a'] [['b']]
    (by decide) (by decide) (by decide) (by decide) (by decide) (by decide)
    (by decide) (by decide) (by decide) (by decide) (by decide) (by decide)
    (by decide) (by decide) (by decide) (by decide) (by decide)

end CB
